import Mathlib

/-!
Verification development for `md2markup.py`, a Markdown → Confluence Wiki
Markup converter (`ConfluenceConverter`).  The Python source is shallowly
embedded: lines are `List Char`, the per-line regular expressions are
translated into executable matching functions, the mutable loops become
structural recursions (with a fuel argument equal to the input length where
the loop consumes a variable number of characters per step), and the
insertion-ordered placeholder dictionaries become association lists.

Modelling notes on character classes: Python's `\w`, `\d` and `\s` are
Unicode-aware; here they are modelled on their ASCII/latin-1 core
(word characters: alphanumerics plus underscore; digits 0-9; whitespace
including the C0 separator characters), which is faithful on every input
used in the theorems below.
-/

set_option maxHeartbeats 1000000

namespace Md2Markup

/-- Characters at which Python's `str.splitlines` breaks a string:
`\n`, `\r` (with `\r\n` counting as a single break), `\v`, `\f`,
the C0 separators FS/GS/RS, NEL, LINE SEPARATOR and PARAGRAPH SEPARATOR. -/
def isLineBreakChar (c : Char) : Bool :=
  c = '\n' || c = '\r' || c = '\x0b' || c = '\x0c' ||
  c = '\x1c' || c = '\x1d' || c = '\x1e' || c = '\x85' ||
  c = '\u2028' || c = '\u2029'

/-- Whitespace as matched by Python's `\s` / `str.strip` (ASCII and latin-1
core of the Unicode whitespace class). -/
def isSpaceChar (c : Char) : Bool :=
  c = ' ' || c = '\t' || c = '\n' || c = '\r' || c = '\x0b' || c = '\x0c' ||
  c = '\x1c' || c = '\x1d' || c = '\x1e' || c = '\x1f' || c = '\x85' || c = '\xa0'

/-- Word characters as matched by `\w` (ASCII core): alphanumeric or underscore. -/
def isWordChar (c : Char) : Bool :=
  c.isAlphanum || c = '_'

/-- `str.splitlines`, accumulator-style: `acc` holds the current (reversed)
line.  A terminating break emits the line; text after the last break is kept;
a trailing break adds no empty final line. -/
def splitlinesAux : List Char → List Char → List (List Char)
  | [], acc => if acc.isEmpty then [] else [acc.reverse]
  | '\r' :: '\n' :: rest, acc => acc.reverse :: splitlinesAux rest []
  | c :: rest, acc =>
    if isLineBreakChar c then acc.reverse :: splitlinesAux rest []
    else splitlinesAux rest (c :: acc)

/-- `text.splitlines()`. -/
def splitlines (l : List Char) : List (List Char) := splitlinesAux l []

/-- `'\n'.join(lines)` on char-list lines. -/
def joinLines : List (List Char) → List Char
  | [] => []
  | [l] => l
  | l :: ls => l ++ '\n' :: joinLines ls

/-- Decimal digit character, `str(n)`'s building block. -/
def digitChar (n : Nat) : Char := Char.ofNat (48 + n)

/-- Fuel-driven decimal rendering of a natural number (most significant first). -/
def natDigitsAux : Nat → Nat → List Char
  | 0, _ => []
  | fuel + 1, n => if n < 10 then [digitChar n] else natDigitsAux fuel (n / 10) ++ [digitChar (n % 10)]

/-- `str(n)` for a natural number. -/
def natDigits (n : Nat) : List Char := natDigitsAux (n + 1) n

/-- The `_PH_CB` tag (`'\x00CB'`) marking fenced-code-block placeholders. -/
def phCB : List Char := ['\x00', 'C', 'B']

/-- The `_PH_IC` tag (`'\x00IC'`) marking inline-code placeholders. -/
def phIC : List Char := ['\x00', 'I', 'C']

/-- The `_PH_LK` tag (`'\x00LK'`) marking link/image placeholders. -/
def phLK : List Char := ['\x00', 'L', 'K']

/-- The `_PH_BD` tag (`'\x00BD'`) marking transient bold placeholders. -/
def phBD : List Char := ['\x00', 'B', 'D']

/-- `_ph(tag, n)`: the unique placeholder string `f'{tag}\x01{n}\x00'`. -/
def ph (tag : List Char) (n : Nat) : List Char := tag ++ '\x01' :: natDigits n ++ ['\x00']

/-- Substring test, modelling Python's `needle in haystack`. -/
def containsSub (pat l : List Char) : Bool :=
  l.tails.any (fun t => pat.isPrefixOf t)

/-! ## Pass 1: fenced code blocks (`_extract_code_blocks`) -/

/-- `_FENCE_START = ^(`{3,}|~{3,})([\w+-]*)$`: a full-line match yields the
fence character and the language token (group 2).  The fence run is maximal;
since neither fence character belongs to `[\w+-]`, a maximal-run check is
equivalent to the backtracking regex. -/
def fenceStartMatch (l : List Char) : Option (Char × List Char) :=
  match l with
  | [] => none
  | c :: _ =>
    if c = '`' || c = '~' then
      let run := l.takeWhile (fun d => d = c)
      let rest := l.drop run.length
      if 3 ≤ run.length && rest.all (fun d => isWordChar d || d = '+' || d = '-') then
        some (c, rest)
      else none
    else none

/-- The closing-fence regex `^{fence_char}{3,}\s*$` built in the collection
loop: 3+ of the same fence character, then only whitespace. -/
def isCloseFence (c : Char) (l : List Char) : Bool :=
  match l with
  | [] => false
  | d :: _ =>
    d = c &&
      (let run := l.takeWhile (fun e => e = c)
       3 ≤ run.length && (l.drop run.length).all isSpaceChar)

/-- The Confluence `{code}` replacement block: header (with optional
`language=`), verbatim body, closing `{code}` line. -/
def mkBlock (lang : List Char) (body : List (List Char)) : List Char :=
  (if lang = [] then "\x7bcode\x7d".data
   else "\x7bcode:language=".data ++ lang ++ ['\x7d']) ++
    '\n' :: joinLines body ++ '\n' :: "\x7bcode\x7d".data

/-- `_extract_code_blocks`, as a single scan.  The `some (c, lang, acc)`
state is the inner collection loop: fence character, language token and
reversed body collected so far.  Returns the new line sequence and the
insertion-ordered code-block placeholder map. -/
def ecbAux : List (List Char) → Nat → Option (Char × List Char × List (List Char)) →
    List (List Char) × List (List Char × List Char)
  | [], _, none => ([], [])
  | [], counter, some (_, lang, acc) =>
    ([ph phCB counter], [(ph phCB counter, mkBlock lang acc.reverse)])
  | l :: rest, counter, none =>
    match fenceStartMatch l with
    | some (c, lang) => ecbAux rest counter (some (c, lang, []))
    | none =>
      let (rs, m) := ecbAux rest counter none
      (l :: rs, m)
  | l :: rest, counter, some (c, lang, acc) =>
    if isCloseFence c l then
      let key := ph phCB counter
      let (rs, m) := ecbAux rest (counter + 1) none
      (key :: rs, (key, mkBlock lang acc.reverse) :: m)
    else ecbAux rest counter (some (c, lang, l :: acc))

/-- `_extract_code_blocks(lines)`. -/
def extractCodeBlocks (lines : List (List Char)) :
    List (List Char) × List (List Char × List Char) :=
  ecbAux lines 0 none

/-! ## Pass 2: block structure (`_process_block_structure`) -/

/-- `str.strip()` for leading whitespace only (`lstrip`). -/
def lstripWS (l : List Char) : List Char := l.dropWhile isSpaceChar

/-- `str.rstrip()`. -/
def rstripWS (l : List Char) : List Char := (l.reverse.dropWhile isSpaceChar).reverse

/-- `str.strip()`. -/
def stripWS (l : List Char) : List Char := rstripWS (lstripWS l)

/-- `_HEADING = ^(#{1,6})\s+(.*)`: maximal run of 1–6 `#` followed by at
least one whitespace character; group 2 is the text after the (greedy)
whitespace run.  A run of 7+ `#` cannot match (backtracking would put a `#`
where `\s` is required). -/
def headingMatch (l : List Char) : Option (Nat × List Char) :=
  let hashes := l.takeWhile (fun c => c = '#')
  if 1 ≤ hashes.length && hashes.length ≤ 6 then
    match l.drop hashes.length with
    | c :: rest => if isSpaceChar c then some (hashes.length, rest.dropWhile isSpaceChar) else none
    | [] => none
  else none

/-- `_HR = ^(\*{3,}|-{3,}|_{3,})\s*$`: 3+ of one of `*` `-` `_`, then only
whitespace. -/
def hrMatch (l : List Char) : Bool :=
  match l with
  | [] => false
  | c :: _ =>
    (c = '*' || c = '-' || c = '_') &&
      (let run := l.takeWhile (fun d => d = c)
       3 ≤ run.length && (l.drop run.length).all isSpaceChar)

/-- `_BLOCKQUOTE = ^>\s?(.*)`: `>` plus at most one whitespace character;
returns group 1. -/
def bqMatch : List Char → Option (List Char)
  | '>' :: rest =>
    some (match rest with
          | c :: r => if isSpaceChar c then r else c :: r
          | [] => [])
  | _ => none

/-- The `while self._BLOCKQUOTE.match(content)` flattening loop applied to
the already-stripped group of the first match. -/
def bqFlatten : List Char → List Char
  | '>' :: rest =>
    (match rest with
     | c :: r => if isSpaceChar c then bqFlatten r else bqFlatten (c :: r)
     | [] => [])
  | l => l

/-- `_UL_ITEM = ^(\s*)([-*+])\s+(.*)`: returns (len(group 1), group 3).
Group 3 starts after the greedy `\s+` run. -/
def ulMatch (l : List Char) : Option (Nat × List Char) :=
  let ws := l.takeWhile isSpaceChar
  match l.drop ws.length with
  | m :: c :: rest =>
    if (m = '-' || m = '*' || m = '+') && isSpaceChar c then
      some (ws.length, rest.dropWhile isSpaceChar)
    else none
  | _ => none

/-- `_OL_ITEM = ^(\s*)(\d+)\.\s+(.*)`: returns (len(group 1), group 3). -/
def olMatch (l : List Char) : Option (Nat × List Char) :=
  let ws := l.takeWhile isSpaceChar
  let rest1 := l.drop ws.length
  let digits := rest1.takeWhile Char.isDigit
  if digits = [] then none
  else
    match rest1.drop digits.length with
    | '.' :: c :: rest => if isSpaceChar c then some (ws.length, rest.dropWhile isSpaceChar) else none
    | _ => none

/-- `_TASK_CHECKED = ^\[x\]\s+` with `re.IGNORECASE`, as used by
`_TASK_CHECKED.sub('', content)`: strips a leading `[x]`/`[X]` plus the
greedy whitespace run, if present. -/
def taskChecked : List Char → Option (List Char)
  | '[' :: x :: ']' :: c :: rest =>
    if (x = 'x' || x = 'X') && isSpaceChar c then some (rest.dropWhile isSpaceChar) else none
  | _ => none

/-- `_TASK_UNCHECKED = ^\[ \]\s+`, as used by `_TASK_UNCHECKED.sub('', content)`. -/
def taskUnchecked : List Char → Option (List Char)
  | '[' :: ' ' :: ']' :: c :: rest =>
    if isSpaceChar c then some (rest.dropWhile isSpaceChar) else none
  | _ => none

/-- `_TABLE_ROW = ^\|(.+)\|$`: first and last characters are `|` with at
least one character between them. -/
def tableRowMatch (l : List Char) : Bool :=
  3 ≤ l.length && l.head? = some '|' && l.getLast? = some '|'

/-- `_TABLE_SEP = ^\|[-| :]+\|$`. -/
def tableSepMatch (l : List Char) : Bool :=
  3 ≤ l.length && l.head? = some '|' && l.getLast? = some '|' &&
    (l.drop 1).dropLast.all (fun c => c = '-' || c = '|' || c = ' ' || c = ':')

/-- `str.split('|')` (never returns an empty list). -/
def splitOnPipe : List Char → List (List Char)
  | [] => [[]]
  | '|' :: rest => [] :: splitOnPipe rest
  | c :: rest =>
    match splitOnPipe rest with
    | g :: gs => (c :: g) :: gs
    | [] => [[c]]

/-- `sep.join(pieces)`. -/
def joinWith (sep : List Char) : List (List Char) → List Char
  | [] => []
  | [x] => x
  | x :: xs => x ++ sep ++ joinWith sep xs

/-- `_format_table_row(row, header)`. -/
def formatTableRow (row : List Char) (header : Bool) : List Char :=
  let inner := stripWS row
  let inner := if inner.head? = some '|' then inner.tail else inner
  let inner := if inner.getLast? = some '|' then inner.dropLast else inner
  let cells := (splitOnPipe inner).map stripWS
  let sep := if header then ['|', '|'] else ['|']
  sep ++ joinWith sep cells ++ sep

/-- `_process_table(rows)`: rows before the first separator row become
header rows, non-separator rows after it become body rows; with no
separator row every row is a body row. -/
def processTable (rows : List (List Char)) : List (List Char) :=
  match rows.findIdx? (fun r => tableSepMatch r) with
  | none => rows.map (fun r => formatTableRow r false)
  | some i =>
    (rows.take i).map (fun r => formatTableRow r true) ++
      ((rows.drop (i + 1)).filter (fun r => !tableSepMatch r)).map
        (fun r => formatTableRow r false)

/-- The per-depth list-type record: `'ul'` or `'ol'` entries of the Python
`list_stack`. -/
inductive LType where
  | ul : LType
  | ol : LType
deriving DecidableEq

/-- The stack update performed by the two list branches: pop while deeper
than `depth`, push `t` while shallower, then overwrite the entry at `depth`. -/
def updateStack (stack : List LType) (depth : Nat) (t : LType) : List LType :=
  let s1 := stack.take depth
  let s2 := s1 ++ List.replicate (depth - s1.length) t
  s2.set (depth - 1) t

/-- `_list_prefix(stack)`: `*` per unordered entry, `#` per ordered entry. -/
def listMarks (stack : List LType) : List Char :=
  stack.map (fun t => match t with | .ul => '*' | .ol => '#')

/-- One non-table, non-placeholder line of `_process_block_structure`:
heading, horizontal rule, blockquote, unordered item, ordered item or
pass-through, in the source's precedence order.  Returns the emitted line
and the updated list stack. -/
def blockLine (l : List Char) (stack : List LType) : List Char × List LType :=
  match headingMatch l with
  | some (level, content) => ('h' :: natDigits level ++ '.' :: ' ' :: rstripWS content, [])
  | none =>
    if hrMatch l && (ulMatch l).isNone && (olMatch l).isNone then
      ("----".data, [])
    else
      match bqMatch l with
      | some content => ("bq. ".data ++ bqFlatten content, [])
      | none =>
        match ulMatch l with
        | some (indent, content) =>
          let depth := indent / 2 + 1
          let stack' := updateStack stack depth LType.ul
          let marks := listMarks (stack'.take depth)
          (match taskChecked content with
           | some rest => marks ++ " (/) ".data ++ rest
           | none =>
             match taskUnchecked content with
             | some rest => marks ++ " ( ) ".data ++ rest
             | none => marks ++ ' ' :: content,
           stack')
        | none =>
          match olMatch l with
          | some (indent, content) =>
            let depth := indent / 2 + 1
            let stack' := updateStack stack depth LType.ol
            let marks := listMarks (stack'.take depth)
            (marks ++ ' ' :: content, stack')
          | none => (l, [])

/-- `_process_block_structure`, with the list stack and pending table
buffer as explicit state.  A code-block placeholder line flushes the table
buffer, resets the stack and passes through; a table row is buffered; any
other line flushes the buffer and is dispatched to `blockLine`. -/
def pbsAux : List (List Char) → List LType → List (List Char) → List (List Char)
  | [], _, buf => processTable buf
  | l :: rest, stack, buf =>
    if containsSub phCB l then
      processTable buf ++ l :: pbsAux rest [] []
    else if tableRowMatch l then
      pbsAux rest stack (buf ++ [l])
    else
      processTable buf ++
        (let (out, stack') := blockLine l stack
         out :: pbsAux rest stack' [])

/-- `_process_block_structure(lines)`. -/
def processBlockStructure (lines : List (List Char)) : List (List Char) :=
  pbsAux lines [] []

/-! ## Pass 6 helper: `_restore_placeholders` -/

/-- `str.replace(pat, val)`: leftmost, non-overlapping.  Fuel-driven (each
step consumes at least one character; `fuel = t.length` suffices).  The
`pat ≠ []` guard is unreachable for placeholder keys, which are never
empty. -/
def replaceAllAux : Nat → List Char → List Char → List Char → List Char
  | 0, t, _, _ => t
  | fuel + 1, t, pat, val =>
    if pat ≠ [] && pat.isPrefixOf t then
      val ++ replaceAllAux fuel (t.drop pat.length) pat val
    else
      match t with
      | [] => []
      | c :: rest => c :: replaceAllAux fuel rest pat val

/-- `text.replace(key, value)`. -/
def replaceAll (t pat val : List Char) : List Char :=
  replaceAllAux t.length t pat val

/-- `_restore_placeholders(text, placeholder_map)`: replace every key by
its value, in insertion order. -/
def restorePlaceholders (text : List Char) (m : List (List Char × List Char)) : List Char :=
  m.foldl (fun t kv => replaceAll t kv.1 kv.2) text

/-! ## Pass 3: inline code (`_extract_inline_code`) -/

/-- The brace-escaping step of the inline-code replacer: if the content
holds a literal brace, `{` becomes `&#123;` and `}` becomes `&#125;`. -/
def escapeBraces (content : List Char) : List Char :=
  if content.any (fun c => c = '\x7b' || c = '\x7d') then
    replaceAll (replaceAll content ['\x7b'] "&#123;".data) ['\x7d'] "&#125;".data
  else content

/-- One attempted match of `_INLINE_CODE = `([^`]+)`` at the head of `l`:
the content is everything up to the next backtick (which must exist and be
preceded by at least one character). -/
def icPosMatch (l : List Char) : Option (List Char × List Char) :=
  match l with
  | [] => none
  | c :: rest =>
    if c = '`' then
      let content := rest.takeWhile (fun x => x ≠ '`')
      match rest.drop content.length with
      | c2 :: rest2 => if c2 = '`' && content ≠ [] then some (content, rest2) else none
      | [] => none
    else none

/-- `_INLINE_CODE.sub(replacer, line)`: scan left to right; on a match emit
a fresh `_PH_IC` placeholder and record `{{content}}` (brace-escaped) in the
map; otherwise copy one character.  The counter is the current map size, as
in the source (`counter = len(inline_map)`, incremented per insertion). -/
def icSubAux : Nat → List Char → List (List Char × List Char) →
    List Char × List (List Char × List Char)
  | 0, l, m => (l, m)
  | fuel + 1, l, m =>
    match icPosMatch l with
    | some (content, rest) =>
      let key := ph phIC m.length
      let value := '\x7b' :: '\x7b' :: escapeBraces content ++ ['\x7d', '\x7d']
      let (r, m') := icSubAux fuel rest (m ++ [(key, value)])
      (key ++ r, m')
    | none =>
      match l with
      | [] => ([], m)
      | c :: rest =>
        let (r, m') := icSubAux fuel rest m
        (c :: r, m')

/-- `_extract_inline_code(line, inline_map)`. -/
def extractInlineCode (l : List Char) (m : List (List Char × List Char)) :
    List Char × List (List Char × List Char) :=
  icSubAux l.length l m

/-! ## Pass 4: links and images (`_extract_links`) -/

/-- One attempted match of `_IMAGE = !\[([^\]]*)\]\(([^)]+)\)` at the head
of `l`: returns (alt, url, rest). -/
def imgPosMatch (l : List Char) : Option (List Char × List Char × List Char) :=
  match l with
  | '!' :: '[' :: rest =>
    let alt := rest.takeWhile (fun x => x ≠ ']')
    match rest.drop alt.length with
    | ']' :: '(' :: rest2 =>
      let url := rest2.takeWhile (fun x => x ≠ ')')
      match rest2.drop url.length with
      | ')' :: rest3 => if url ≠ [] then some (alt, url, rest3) else none
      | _ => none
    | _ => none
  | _ => none

/-- One attempted match of `_LINK = \[([^\]]*)\]\(([^)]+)\)` at the head of
`l`: returns (text, url, rest). -/
def linkPosMatch (l : List Char) : Option (List Char × List Char × List Char) :=
  match l with
  | '[' :: rest =>
    let txt := rest.takeWhile (fun x => x ≠ ']')
    match rest.drop txt.length with
    | ']' :: '(' :: rest2 =>
      let url := rest2.takeWhile (fun x => x ≠ ')')
      match rest2.drop url.length with
      | ')' :: rest3 => if url ≠ [] then some (txt, url, rest3) else none
      | _ => none
    | _ => none
  | _ => none

/-- `_IMAGE.sub(img_replacer, line)`: each image becomes a `_PH_LK`
placeholder mapping to `!url!` (the alt text is discarded). -/
def imgSubAux : Nat → List Char → List (List Char × List Char) →
    List Char × List (List Char × List Char)
  | 0, l, m => (l, m)
  | fuel + 1, l, m =>
    match imgPosMatch l with
    | some (_, url, rest) =>
      let key := ph phLK m.length
      let value := '!' :: url ++ ['!']
      let (r, m') := imgSubAux fuel rest (m ++ [(key, value)])
      (key ++ r, m')
    | none =>
      match l with
      | [] => ([], m)
      | c :: rest =>
        let (r, m') := imgSubAux fuel rest m
        (c :: r, m')

/-- `_LINK.sub(link_replacer, line)`: each link becomes a `_PH_LK`
placeholder mapping to `[text|url]`. -/
def linkSubAux : Nat → List Char → List (List Char × List Char) →
    List Char × List (List Char × List Char)
  | 0, l, m => (l, m)
  | fuel + 1, l, m =>
    match linkPosMatch l with
    | some (txt, url, rest) =>
      let key := ph phLK m.length
      let value := '[' :: txt ++ '|' :: url ++ [']']
      let (r, m') := linkSubAux fuel rest (m ++ [(key, value)])
      (key ++ r, m')
    | none =>
      match l with
      | [] => ([], m)
      | c :: rest =>
        let (r, m') := linkSubAux fuel rest m
        (c :: r, m')

/-- `_extract_links(line, link_map)`: images first, then links. -/
def extractLinks (l : List Char) (m : List (List Char × List Char)) :
    List Char × List (List Char × List Char) :=
  let (l1, m1) := imgSubAux l.length l m
  linkSubAux l1.length l1 m1

/-! ## Pass 5: inline formatting (`_process_inline_formatting`) -/

/-- The lazy search for the two-character closer `dd` of `(\*{2}|_{2})(.+?)\1`:
first occurrence of `dd`; returns the characters skipped and the remainder
after the closer. -/
def findClose2 (d : Char) : List Char → Option (List Char × List Char)
  | c1 :: c2 :: rest =>
    if c1 = d && c2 = d then some ([], rest)
    else
      match findClose2 d (c2 :: rest) with
      | some (seg, after) => some (c1 :: seg, after)
      | none => none
  | _ => none

/-- The lazy search for the three-character closer `ddd` of
`(\*{3}|_{3})(.+?)\1`. -/
def findClose3 (d : Char) : List Char → Option (List Char × List Char)
  | c1 :: c2 :: c3 :: rest =>
    if c1 = d && c2 = d && c3 = d then some ([], rest)
    else
      match findClose3 d (c2 :: c3 :: rest) with
      | some (seg, after) => some (c1 :: seg, after)
      | none => none
  | _ => none

/-- One attempted match of `_BOLD_ITALIC = (\*{3}|_{3})(.+?)\1` at the head
of `l`: three identical delimiters, a non-empty lazy body, the same three
delimiters.  Returns (body, rest). -/
def biPosMatch (l : List Char) : Option (List Char × List Char) :=
  match l with
  | a :: b :: c :: e :: rest =>
    if a = b && b = c && (a = '*' || a = '_') then
      match findClose3 a rest with
      | some (seg, after) => some (e :: seg, after)
      | none => none
    else none
  | _ => none

/-- One attempted match of `_BOLD = (\*{2}|_{2})(.+?)\1` at the head of `l`. -/
def boldPosMatch (l : List Char) : Option (List Char × List Char) :=
  match l with
  | a :: b :: c :: rest =>
    if a = b && (a = '*' || a = '_') then
      match findClose2 a rest with
      | some (seg, after) => some (c :: seg, after)
      | none => none
    else none
  | _ => none

/-- One attempted match of `_STRIKE = ~~(.+?)~~` at the head of `l`. -/
def strikePosMatch (l : List Char) : Option (List Char × List Char) :=
  match l with
  | '~' :: '~' :: c :: rest =>
    match findClose2 '~' rest with
    | some (seg, after) => some (c :: seg, after)
    | none => none
  | _ => none

/-- The lazy search for the closing delimiter of the italic pattern
`(?<!d)d(?!d)(.+?)(?<!d)d(?!d)`: first position holding `d` whose original
predecessor (threaded in `prev`) is not `d` and whose successor is not `d`. -/
def italicClose (d : Char) : List Char → Char → Option (List Char × List Char)
  | [], _ => none
  | c :: rest, prev =>
    if c = d && prev ≠ d && rest.head? ≠ some d then some ([], rest)
    else
      match italicClose d rest c with
      | some (seg, after) => some (c :: seg, after)
      | none => none

/-- One attempted match of `_ITALIC` at the head of `l`.  `prevStar` /
`prevUnd` say whether the character of the original line just before `l` is
`*` / `_` (the negative lookbehind of the opening delimiter).  Returns
(delimiter, body, rest); the delimiter char is the predecessor of the text
that follows the match. -/
def italicPosMatch (prevStar prevUnd : Bool) (l : List Char) :
    Option (Char × List Char × List Char) :=
  match l with
  | '*' :: c :: rest =>
    if prevStar = false && c ≠ '*' then
      match italicClose '*' rest c with
      | some (seg, after) => some ('*', c :: seg, after)
      | none => none
    else none
  | '_' :: c :: rest =>
    if prevUnd = false && c ≠ '_' then
      match italicClose '_' rest c with
      | some (seg, after) => some ('_', c :: seg, after)
      | none => none
    else none
  | _ => none

/-- `_BOLD_ITALIC.sub(...)`: each match is stored in the transient bold map
as `*_body_*` under a fresh `_PH_BD` key (`store_bold`). -/
def biSubAux : Nat → List Char → List (List Char × List Char) →
    List Char × List (List Char × List Char)
  | 0, l, m => (l, m)
  | fuel + 1, l, m =>
    match biPosMatch l with
    | some (body, rest) =>
      let key := ph phBD m.length
      let value := '*' :: '_' :: body ++ ['_', '*']
      let (r, m') := biSubAux fuel rest (m ++ [(key, value)])
      (key ++ r, m')
    | none =>
      match l with
      | [] => ([], m)
      | c :: rest =>
        let (r, m') := biSubAux fuel rest m
        (c :: r, m')

/-- `_BOLD.sub(...)`: each match is stored in the transient bold map as
`*body*` under a fresh `_PH_BD` key. -/
def boldSubAux : Nat → List Char → List (List Char × List Char) →
    List Char × List (List Char × List Char)
  | 0, l, m => (l, m)
  | fuel + 1, l, m =>
    match boldPosMatch l with
    | some (body, rest) =>
      let key := ph phBD m.length
      let value := '*' :: body ++ ['*']
      let (r, m') := boldSubAux fuel rest (m ++ [(key, value)])
      (key ++ r, m')
    | none =>
      match l with
      | [] => ([], m)
      | c :: rest =>
        let (r, m') := boldSubAux fuel rest m
        (c :: r, m')

/-- `_ITALIC.sub(italic_repl, line)`: the lookbehind state is the original
character preceding the unscanned remainder (the closing delimiter after a
match). -/
def italicSubAux : Nat → Bool → Bool → List Char → List Char
  | 0, _, _, l => l
  | fuel + 1, pS, pU, l =>
    match italicPosMatch pS pU l with
    | some (d, body, rest) =>
      '_' :: body ++ '_' :: italicSubAux fuel (d = '*') (d = '_') rest
    | none =>
      match l with
      | [] => []
      | c :: rest => c :: italicSubAux fuel (c = '*') (c = '_') rest

/-- `_ITALIC.sub` over a whole line (no character precedes the start). -/
def italicSub (l : List Char) : List Char := italicSubAux l.length false false l

/-- `_STRIKE.sub(...)`: `~~body~~` becomes `-body-`. -/
def strikeSubAux : Nat → List Char → List Char
  | 0, l => l
  | fuel + 1, l =>
    match strikePosMatch l with
    | some (body, rest) => '-' :: body ++ '-' :: strikeSubAux fuel rest
    | none =>
      match l with
      | [] => []
      | c :: rest => c :: strikeSubAux fuel rest

/-- `_process_inline_formatting(line)`: bold-italic, bold (both shielded as
`_PH_BD` placeholders), italic, strikethrough, then restore the transient
bold placeholders. -/
def processInlineFormatting (l : List Char) : List Char :=
  let (l1, bm1) := biSubAux l.length l []
  let (l2, bm2) := boldSubAux l1.length l1 bm1
  let l3 := italicSub l2
  let l4 := strikeSubAux l3.length l3
  restorePlaceholders l4 bm2

/-! ## The conversion pipeline (`convert`) -/

/-- The per-line loop of `convert` (passes 3–6): a line carrying a
code-block placeholder passes through untouched; otherwise inline code and
links are extracted, inline formatting applied and the link then inline-code
placeholders restored.  The link and inline-code maps accumulate across
lines. -/
def processInlineLines : List (List Char) → List (List Char × List Char) →
    List (List Char × List Char) →
    List (List Char) × List (List Char × List Char) × List (List Char × List Char)
  | [], lm, im => ([], lm, im)
  | l :: rest, lm, im =>
    if containsSub phCB l then
      let (rs, lm', im') := processInlineLines rest lm im
      (l :: rs, lm', im')
    else
      let (l1, im1) := extractInlineCode l im
      let (l2, lm1) := extractLinks l1 lm
      let l3 := processInlineFormatting l2
      let l4 := restorePlaceholders l3 lm1
      let l5 := restorePlaceholders l4 im1
      let (rs, lm', im') := processInlineLines rest lm1 im1
      (l5 :: rs, lm', im')

/-- `ConfluenceConverter.convert(text)`. -/
def convert (s : String) : String :=
  let text := s.data
  let trailingNewline := text.getLast? = some '\n'
  let lines := splitlines text
  let (lines1, codeMap) := extractCodeBlocks lines
  let lines2 := processBlockStructure lines1
  let (resultLines, _, _) := processInlineLines lines2 [] []
  let output := joinLines resultLines
  let output := restorePlaceholders output codeMap
  ⟨if trailingNewline then output ++ ['\n'] else output⟩

/-- "The output ends with a line break", with line break read as any of the
characters `str.splitlines` breaks at. -/
def endsWithLineBreak (s : String) : Bool :=
  match s.data.getLast? with
  | some c => isLineBreakChar c
  | none => false

/-! ## Spec-side table definitions (for the refinement statement of C5) -/

/-- Row formatting as the spec words it: strip one leading and one trailing
pipe, split the remainder on pipes, trim each cell, join and wrap with the
header or body delimiter. -/
def formatTableRowSpec (row : List Char) (header : Bool) : List Char :=
  let inner := if row.head? = some '|' then row.tail else row
  let inner := if inner.getLast? = some '|' then inner.dropLast else inner
  let cells := (splitOnPipe inner).map stripWS
  let sep := if header then "||".data else "|".data
  sep ++ joinWith sep cells ++ sep

/-- Table flushing as the spec words it: with a separator row present, the
rows before the first separator become header rows and the non-separator
rows after it become body rows; with none, every row is a body row. -/
def processTableSpec (rows : List (List Char)) : List (List Char) :=
  if rows.any tableSepMatch then
    (rows.takeWhile (fun r => !tableSepMatch r)).map (fun r => formatTableRowSpec r true) ++
      ((rows.dropWhile (fun r => !tableSepMatch r)).tail.filter (fun r => !tableSepMatch r)).map
        (fun r => formatTableRowSpec r false)
  else rows.map (fun r => formatTableRowSpec r false)

/-- "The line matches no pattern": no fence opener, no code-block
placeholder, no table row, heading, horizontal rule, blockquote or list
item, and no position at which any of the inline regexes (inline code,
image, link, bold-italic, bold, strikethrough, italic under any lookbehind
state) matches; and no line-break characters. -/
def plainLine (l : List Char) : Bool :=
  l.all (fun c => !isLineBreakChar c) &&
  (fenceStartMatch l).isNone &&
  !containsSub phCB l &&
  !tableRowMatch l &&
  (headingMatch l).isNone &&
  !hrMatch l &&
  (bqMatch l).isNone &&
  (ulMatch l).isNone &&
  (olMatch l).isNone &&
  l.tails.all (fun t =>
    (icPosMatch t).isNone && (imgPosMatch t).isNone && (linkPosMatch t).isNone &&
    (biPosMatch t).isNone && (boldPosMatch t).isNone && (strikePosMatch t).isNone &&
    (italicPosMatch false false t).isNone && (italicPosMatch false true t).isNone &&
    (italicPosMatch true false t).isNone && (italicPosMatch true true t).isNone)

/-- "Contains no line-break character at all" (the state of every line
inside the pipeline). -/
abbrev NBC (l : List Char) : Prop := ∀ c ∈ l, isLineBreakChar c = false

/-- "Every line-break character is `\n`" (the state of the assembled
output text). -/
abbrev NLOnly (l : List Char) : Prop := ∀ c ∈ l, isLineBreakChar c = true → c = '\n'

/-! ## Generic helper lemmas -/

theorem takeWhile_append_stop (p : Char → Bool) (t : List Char) (x : Char) (r : List Char)
    (ht : ∀ c ∈ t, p c = true) (hx : p x = false) :
    (t ++ x :: r).takeWhile p = t := by
  induction t with
  | nil => simp [List.takeWhile, hx]
  | cons a t ih =>
    have ha : p a = true := ht a (by simp)
    simp [List.cons_append, List.takeWhile_cons, ha, ih (fun c hc => ht c (by simp [hc]))]

theorem dropWhile_append_stop (p : Char → Bool) (t : List Char) (x : Char) (r : List Char)
    (ht : ∀ c ∈ t, p c = true) (hx : p x = false) :
    (t ++ x :: r).dropWhile p = x :: r := by
  induction t with
  | nil => simp [List.dropWhile, hx]
  | cons a t ih =>
    have ha : p a = true := ht a (by simp)
    simp only [List.cons_append, List.dropWhile_cons, ha, if_true]
    exact ih (fun c hc => ht c (by simp [hc]))

/-! ## C3: trailing line breaks -/

/-- C3 (counterexample): the claimed equivalence "convert(s) ends with a
line break iff s does" fails on `"a\r"`: the input ends with the line-break
character `\r`, but `convert "a\r" = "a"` does not end with a line break
(`splitlines` consumes the `\r` and only a trailing `\n` is re-appended). -/
theorem c3_counterexample :
    endsWithLineBreak "a\r" = true ∧ endsWithLineBreak (convert "a\r") = false ∧
      convert "a\r" = "a" := by
  refine ⟨by decide, by decide, by decide⟩

/-- C3 (amended): if the input ends with the newline character `\n`, the
output of `convert` ends with `\n`.  (The converse fails, e.g. on
`"a\n\r"`, and a trailing non-`\n` break character is not preserved, e.g.
on `"a\r"`.) -/
theorem c3_trailing_newline_preserved (s : String) (h : s.data.getLast? = some '\n') :
    (convert s).data.getLast? = some '\n' := by
  unfold convert
  simp only [h, if_pos]
  exact List.getLast?_concat _

/-- C3 (witness): the amended theorem applied to `"a\n"`. -/
theorem c3_trailing_newline_preserved_witness :
    ("a\n" : String).data.getLast? = some '\n' ∧
      (convert "a\n").data.getLast? = some '\n' :=
  ⟨by decide, c3_trailing_newline_preserved "a\n" (by decide)⟩

/-! ## `splitlines` / `joinLines` lemmas -/

theorem splitlinesAux_single : ∀ (l acc : List Char), l ≠ [] →
    (∀ c ∈ l, isLineBreakChar c = false) → splitlinesAux l acc = [acc.reverse ++ l] := by
  intro l
  induction l with
  | nil => simp
  | cons c rest ih =>
    intro acc _ hclean
    have hc : isLineBreakChar c = false := hclean c (by simp)
    have hno : ∀ (r : List Char), c = '\r' → rest = '\n' :: r → False := by
      intro r h1 _
      subst h1
      exact absurd hc (by decide)
    rw [splitlinesAux.eq_3 acc c rest hno, if_neg (by simp [hc])]
    cases rest with
    | nil => simp [splitlinesAux]
    | cons d r =>
      rw [ih (c :: acc) (by simp) (fun x hx => hclean x (by simp [hx]))]
      simp

theorem splitlinesAux_break : ∀ (pre rest acc : List Char),
    (∀ c ∈ pre, isLineBreakChar c = false) →
    splitlinesAux (pre ++ '\n' :: rest) acc = (acc.reverse ++ pre) :: splitlinesAux rest [] := by
  intro pre
  induction pre with
  | nil =>
    intro rest acc _
    have hno : ∀ (r : List Char), '\n' = '\r' → rest = '\n' :: r → False := by
      intro r h1 _
      exact absurd h1 (by decide)
    rw [List.nil_append, splitlinesAux.eq_3 acc '\n' rest hno, if_pos (by decide)]
    simp
  | cons c pre ih =>
    intro rest acc hclean
    have hc : isLineBreakChar c = false := hclean c (by simp)
    have hno : ∀ (r : List Char), c = '\r' → pre ++ '\n' :: rest = '\n' :: r → False := by
      intro r h1 _
      subst h1
      exact absurd hc (by decide)
    rw [List.cons_append, splitlinesAux.eq_3 acc c (pre ++ '\n' :: rest) hno,
      if_neg (by simp [hc]), ih rest (c :: acc) (fun x hx => hclean x (by simp [hx]))]
    simp

theorem joinLines_cons (x : List Char) (ys : List (List Char)) (h : ys ≠ []) :
    joinLines (x :: ys) = x ++ '\n' :: joinLines ys := by
  cases ys with
  | nil => exact absurd rfl h
  | cons y ys => rfl

/-- Splitting a joined block of break-free lines recovers the lines, as
long as the final line is non-empty. -/
theorem splitlines_joinLines : ∀ (ls : List (List Char)) (lst : List Char),
    (∀ x ∈ ls, ∀ c ∈ x, isLineBreakChar c = false) →
    (∀ c ∈ lst, isLineBreakChar c = false) → lst ≠ [] →
    splitlines (joinLines (ls ++ [lst])) = ls ++ [lst] := by
  intro ls
  induction ls with
  | nil =>
    intro lst _ hlast hne
    simpa [splitlines, joinLines] using splitlinesAux_single lst [] hne hlast
  | cons x ls ih =>
    intro lst hls hlast hne
    rw [List.cons_append, joinLines_cons x (ls ++ [lst]) (by simp)]
    unfold splitlines
    rw [splitlinesAux_break x (joinLines (ls ++ [lst])) [] (fun c hc => hls x (by simp) c hc)]
    have := ih lst (fun y hy c hc => hls y (by simp [hy]) c hc) hlast hne
    unfold splitlines at this
    rw [this]
    simp

/-! ## Further helper lemmas on `joinLines` -/

theorem getLast?_cons_of_ne_nil (a : Char) (l : List Char) (h : l ≠ []) :
    (a :: l).getLast? = l.getLast? := by
  cases l with
  | nil => exact absurd rfl h
  | cons b t => simp [List.getLast?_cons_cons]

theorem joinLines_getLast? (ls : List (List Char)) (lst : List Char) (h : lst ≠ []) :
    (joinLines (ls ++ [lst])).getLast? = lst.getLast? := by
  induction ls with
  | nil => simp [joinLines]
  | cons x ls ih =>
    rw [List.cons_append, joinLines_cons x (ls ++ [lst]) (by simp)]
    rw [List.getLast?_append_cons]
    have hne : joinLines (ls ++ [lst]) ≠ [] := by
      intro h0
      rw [h0] at ih
      have hnone : lst.getLast? = none := by
        rw [← ih]
        rfl
      rw [List.getLast?_eq_none_iff] at hnone
      exact h hnone
    rw [getLast?_cons_of_ne_nil _ _ hne, ih]

/-- `convert` with its pipeline spelled out, for rewriting. -/
theorem convert_def (s : String) :
    convert s =
      ⟨(if s.data.getLast? = some '\n' then
          restorePlaceholders
            (joinLines
              (processInlineLines
                (processBlockStructure (extractCodeBlocks (splitlines s.data)).1) [] []).1)
            (extractCodeBlocks (splitlines s.data)).2 ++ ['\n']
        else
          restorePlaceholders
            (joinLines
              (processInlineLines
                (processBlockStructure (extractCodeBlocks (splitlines s.data)).1) [] []).1)
            (extractCodeBlocks (splitlines s.data)).2)⟩ := by
  unfold convert
  rcases h : extractCodeBlocks (splitlines s.data) with ⟨lines1, codeMap⟩
  rcases h2 : processInlineLines (processBlockStructure lines1) [] [] with ⟨rs, lm⟩
  simp [h, h2]

/-! ## `replaceAll` and placeholder-restoration lemmas -/

theorem replaceAllAux_nil (fuel : Nat) (pat val : List Char) :
    replaceAllAux fuel [] pat val = [] := by
  cases fuel with
  | zero => rfl
  | succ n =>
    have hcond : (decide (pat ≠ []) && pat.isPrefixOf ([] : List Char)) = false := by
      cases pat with
      | nil => simp
      | cons p ps => simp [List.isPrefixOf_iff_prefix]
    rw [replaceAllAux.eq_def]
    simp only [hcond]
    simp

theorem replaceAllAux_id_of_head_not_mem (pat val : List Char) (p : Char)
    (hp : pat.head? = some p) :
    ∀ (fuel : Nat) (t : List Char), p ∉ t → replaceAllAux fuel t pat val = t := by
  obtain ⟨ps, rfl⟩ : ∃ ps, pat = p :: ps := by
    cases pat with
    | nil => simp at hp
    | cons a ps =>
      simp only [List.head?_cons, Option.some.injEq] at hp
      exact ⟨ps, by rw [hp]⟩
  intro fuel
  induction fuel with
  | zero => intro t _; rfl
  | succ n ih =>
    intro t hmem
    rw [replaceAllAux.eq_def]
    simp only []
    cases t with
    | nil => simp [List.isPrefixOf_iff_prefix]
    | cons c rest =>
      have hpre : (p :: ps).isPrefixOf (c :: rest) = false := by
        simp only [Bool.eq_false_iff, ne_eq, List.isPrefixOf_iff_prefix]
        intro hx
        rw [List.cons_prefix_cons] at hx
        exact hmem (by simp [hx.1])
      simp only [hpre, Bool.and_false, Bool.false_eq_true, if_false]
      rw [ih rest (fun hx => hmem (by simp [hx]))]

theorem replaceAll_id_of_head_not_mem (t pat val : List Char) (p : Char)
    (hp : pat.head? = some p) (hmem : p ∉ t) : replaceAll t pat val = t :=
  replaceAllAux_id_of_head_not_mem pat val p hp t.length t hmem

/-- Replacing a key inside a text that is exactly the key yields the value. -/
theorem replaceAll_self (t val : List Char) (h : t ≠ []) : replaceAll t t val = val := by
  unfold replaceAll
  cases t with
  | nil => exact absurd rfl h
  | cons c rest =>
    rw [List.length_cons, replaceAllAux.eq_def]
    simp only []
    rw [if_pos (by simp [List.isPrefixOf_iff_prefix]), List.drop_length, replaceAllAux_nil]
    simp

theorem restorePlaceholders_id_of_no_null (t : List Char)
    (m : List (List Char × List Char))
    (hkeys : ∀ kv ∈ m, kv.1.head? = some '\x00') (ht : '\x00' ∉ t) :
    restorePlaceholders t m = t := by
  induction m with
  | nil => rfl
  | cons kv m ih =>
    unfold restorePlaceholders
    rw [List.foldl_cons]
    rw [replaceAll_id_of_head_not_mem t kv.1 kv.2 '\x00' (hkeys kv (by simp)) ht]
    exact ih (fun x hx => hkeys x (by simp [hx]))

/-! ## Scanner identity lemmas: a pass with no match leaves the line as it is -/

theorem icSubAux_id (fuel : Nat) :
    ∀ (l : List Char) (m : List (List Char × List Char)),
      (∀ t ∈ l.tails, icPosMatch t = none) → icSubAux fuel l m = (l, m) := by
  induction fuel with
  | zero => intro l m _; rfl
  | succ n ih =>
    intro l m hnm
    rw [icSubAux.eq_def]
    simp only [hnm l (by simp [List.mem_tails])]
    cases l with
    | nil => rfl
    | cons c rest =>
      simp only []
      rw [ih rest m (fun t ht => hnm t (by
        rw [List.mem_tails] at ht ⊢
        exact ht.trans (List.suffix_cons c rest)))]

theorem imgSubAux_id (fuel : Nat) :
    ∀ (l : List Char) (m : List (List Char × List Char)),
      (∀ t ∈ l.tails, imgPosMatch t = none) → imgSubAux fuel l m = (l, m) := by
  induction fuel with
  | zero => intro l m _; rfl
  | succ n ih =>
    intro l m hnm
    rw [imgSubAux.eq_def]
    simp only [hnm l (by simp [List.mem_tails])]
    cases l with
    | nil => rfl
    | cons c rest =>
      simp only []
      rw [ih rest m (fun t ht => hnm t (by
        rw [List.mem_tails] at ht ⊢
        exact ht.trans (List.suffix_cons c rest)))]

theorem linkSubAux_id (fuel : Nat) :
    ∀ (l : List Char) (m : List (List Char × List Char)),
      (∀ t ∈ l.tails, linkPosMatch t = none) → linkSubAux fuel l m = (l, m) := by
  induction fuel with
  | zero => intro l m _; rfl
  | succ n ih =>
    intro l m hnm
    rw [linkSubAux.eq_def]
    simp only [hnm l (by simp [List.mem_tails])]
    cases l with
    | nil => rfl
    | cons c rest =>
      simp only []
      rw [ih rest m (fun t ht => hnm t (by
        rw [List.mem_tails] at ht ⊢
        exact ht.trans (List.suffix_cons c rest)))]

theorem biSubAux_id (fuel : Nat) :
    ∀ (l : List Char) (m : List (List Char × List Char)),
      (∀ t ∈ l.tails, biPosMatch t = none) → biSubAux fuel l m = (l, m) := by
  induction fuel with
  | zero => intro l m _; rfl
  | succ n ih =>
    intro l m hnm
    rw [biSubAux.eq_def]
    simp only [hnm l (by simp [List.mem_tails])]
    cases l with
    | nil => rfl
    | cons c rest =>
      simp only []
      rw [ih rest m (fun t ht => hnm t (by
        rw [List.mem_tails] at ht ⊢
        exact ht.trans (List.suffix_cons c rest)))]

theorem boldSubAux_id (fuel : Nat) :
    ∀ (l : List Char) (m : List (List Char × List Char)),
      (∀ t ∈ l.tails, boldPosMatch t = none) → boldSubAux fuel l m = (l, m) := by
  induction fuel with
  | zero => intro l m _; rfl
  | succ n ih =>
    intro l m hnm
    rw [boldSubAux.eq_def]
    simp only [hnm l (by simp [List.mem_tails])]
    cases l with
    | nil => rfl
    | cons c rest =>
      simp only []
      rw [ih rest m (fun t ht => hnm t (by
        rw [List.mem_tails] at ht ⊢
        exact ht.trans (List.suffix_cons c rest)))]

theorem strikeSubAux_id (fuel : Nat) :
    ∀ (l : List Char),
      (∀ t ∈ l.tails, strikePosMatch t = none) → strikeSubAux fuel l = l := by
  induction fuel with
  | zero => intro l _; rfl
  | succ n ih =>
    intro l hnm
    rw [strikeSubAux.eq_def]
    simp only [hnm l (by simp [List.mem_tails])]
    cases l with
    | nil => rfl
    | cons c rest =>
      simp only []
      rw [ih rest (fun t ht => hnm t (by
        rw [List.mem_tails] at ht ⊢
        exact ht.trans (List.suffix_cons c rest)))]

theorem italicSubAux_id (fuel : Nat) :
    ∀ (pS pU : Bool) (l : List Char),
      (∀ t ∈ l.tails, ∀ b1 b2, italicPosMatch b1 b2 t = none) →
      italicSubAux fuel pS pU l = l := by
  induction fuel with
  | zero => intro pS pU l _; rfl
  | succ n ih =>
    intro pS pU l hnm
    rw [italicSubAux.eq_def]
    simp only [hnm l (by simp [List.mem_tails]) pS pU]
    cases l with
    | nil => rfl
    | cons c rest =>
      simp only []
      rw [ih _ _ rest (fun t ht => hnm t (by
        rw [List.mem_tails] at ht ⊢
        exact ht.trans (List.suffix_cons c rest)))]

/-- A suffix of `l` cannot start with a character that does not occur in `l`. -/
theorem tail_head_ne {l t : List Char} (ht : t ∈ l.tails) {x : Char} (hx : x ∉ l) :
    t.head? ≠ some x := by
  intro h
  apply hx
  rw [List.mem_tails] at ht
  apply ht.subset
  cases t with
  | nil => simp at h
  | cons c r =>
    simp only [List.head?_cons, Option.some.injEq] at h
    simp [h]

theorem icPosMatch_none (t : List Char) (h : t.head? ≠ some '`') :
    icPosMatch t = none := by
  cases t with
  | nil => rfl
  | cons c rest =>
    simp only [List.head?_cons, ne_eq, Option.some.injEq] at h
    simp [icPosMatch, h]

theorem imgPosMatch_none (t : List Char) (h : t.head? ≠ some '!') :
    imgPosMatch t = none := by
  rw [imgPosMatch.eq_def]
  split
  · exact absurd rfl h
  · rfl

theorem linkPosMatch_none (t : List Char) (h : t.head? ≠ some '[') :
    linkPosMatch t = none := by
  rw [linkPosMatch.eq_def]
  split
  · exact absurd rfl h
  · rfl

theorem biPosMatch_none (t : List Char) (h1 : t.head? ≠ some '*') (h2 : t.head? ≠ some '_') :
    biPosMatch t = none := by
  rw [biPosMatch.eq_def]
  split
  · rename_i a b c e rest
    split
    · rename_i hcond
      exfalso
      rw [Bool.and_eq_true, Bool.and_eq_true] at hcond
      rcases hcond with ⟨⟨-, -⟩, hor⟩
      rw [Bool.or_eq_true, decide_eq_true_eq, decide_eq_true_eq] at hor
      cases hor with
      | inl ha => exact h1 (by simp [ha])
      | inr ha => exact h2 (by simp [ha])
    · rfl
  · rfl

theorem boldPosMatch_none (t : List Char) (h1 : t.head? ≠ some '*') (h2 : t.head? ≠ some '_') :
    boldPosMatch t = none := by
  rw [boldPosMatch.eq_def]
  split
  · rename_i a b c rest
    split
    · rename_i hcond
      exfalso
      rw [Bool.and_eq_true] at hcond
      rcases hcond with ⟨-, hor⟩
      rw [Bool.or_eq_true, decide_eq_true_eq, decide_eq_true_eq] at hor
      cases hor with
      | inl ha => exact h1 (by simp [ha])
      | inr ha => exact h2 (by simp [ha])
    · rfl
  · rfl

theorem strikePosMatch_none (t : List Char) (h : t.head? ≠ some '~') :
    strikePosMatch t = none := by
  rw [strikePosMatch.eq_def]
  split
  · exact absurd rfl h
  · rfl

theorem italicPosMatch_none (pS pU : Bool) (t : List Char)
    (h1 : t.head? ≠ some '*') (h2 : t.head? ≠ some '_') :
    italicPosMatch pS pU t = none := by
  rw [italicPosMatch.eq_def]
  split
  · exact absurd rfl h1
  · exact absurd rfl h2
  · rfl

/-! ## Code-block extraction lemmas -/

theorem ecb_collect (c : Char) (lang : List Char) (body : List (List Char)) :
    ∀ (acc : List (List Char)) (closeLine : List Char) (rest : List (List Char)) (counter : Nat),
      (∀ b ∈ body, isCloseFence c b = false) → isCloseFence c closeLine = true →
      ecbAux (body ++ closeLine :: rest) counter (some (c, lang, acc)) =
        (ph phCB counter :: (ecbAux rest (counter + 1) none).1,
         (ph phCB counter, mkBlock lang (acc.reverse ++ body)) ::
           (ecbAux rest (counter + 1) none).2) := by
  induction body with
  | nil =>
    intro acc closeLine rest counter _ hclose
    simp [ecbAux, hclose]
  | cons b bs ih =>
    intro acc closeLine rest counter hbody hclose
    have hb : isCloseFence c b = false := hbody b (by simp)
    have step : ecbAux ((b :: bs) ++ closeLine :: rest) counter (some (c, lang, acc)) =
        ecbAux (bs ++ closeLine :: rest) counter (some (c, lang, b :: acc)) := by
      simp [ecbAux, hb]
    rw [step, ih (b :: acc) closeLine rest counter (fun x hx => hbody x (by simp [hx])) hclose]
    simp [List.append_assoc]

theorem ecb_collect_eof (c : Char) (lang : List Char) (body : List (List Char)) :
    ∀ (acc : List (List Char)) (counter : Nat),
      (∀ b ∈ body, isCloseFence c b = false) →
      ecbAux body counter (some (c, lang, acc)) =
        ([ph phCB counter], [(ph phCB counter, mkBlock lang (acc.reverse ++ body))]) := by
  induction body with
  | nil =>
    intro acc counter _
    simp [ecbAux]
  | cons b bs ih =>
    intro acc counter hbody
    have hb : isCloseFence c b = false := hbody b (by simp)
    have step : ecbAux (b :: bs) counter (some (c, lang, acc)) =
        ecbAux bs counter (some (c, lang, b :: acc)) := by
      simp [ecbAux, hb]
    rw [step, ih (b :: acc) counter (fun x hx => hbody x (by simp [hx]))]
    simp [List.append_assoc]

/-- C4: fenced-code-block extraction.  (1) With a closing fence: a block
opened by a fence line (3+ identical backticks/tildes, optional language
token) collects the body lines verbatim until the first closing line of 3+
of the same fence character (trailing whitespace allowed), consumes that
line, and replaces the whole block by one placeholder whose stored value is
the `{code:language=<lang>}` header (or `{code}` when the language token is
empty) followed by the verbatim body and a closing `{code}` line.
(2) Without a closing fence, the body extends to the end of the input. -/
theorem c4_extract_code_blocks :
    (∀ (fenceLine : List Char) (c : Char) (lang : List Char) (body : List (List Char))
        (closeLine : List Char) (rest : List (List Char)) (counter : Nat),
      fenceStartMatch fenceLine = some (c, lang) →
      (∀ b ∈ body, isCloseFence c b = false) →
      isCloseFence c closeLine = true →
      ecbAux (fenceLine :: (body ++ closeLine :: rest)) counter none =
        (ph phCB counter :: (ecbAux rest (counter + 1) none).1,
         (ph phCB counter,
           (if lang = [] then "\x7bcode\x7d".data
            else "\x7bcode:language=".data ++ lang ++ ['\x7d']) ++
             '\n' :: joinLines body ++ '\n' :: "\x7bcode\x7d".data) ::
           (ecbAux rest (counter + 1) none).2)) ∧
    (∀ (fenceLine : List Char) (c : Char) (lang : List Char) (body : List (List Char))
        (counter : Nat),
      fenceStartMatch fenceLine = some (c, lang) →
      (∀ b ∈ body, isCloseFence c b = false) →
      ecbAux (fenceLine :: body) counter none =
        ([ph phCB counter],
         [(ph phCB counter,
           (if lang = [] then "\x7bcode\x7d".data
            else "\x7bcode:language=".data ++ lang ++ ['\x7d']) ++
             '\n' :: joinLines body ++ '\n' :: "\x7bcode\x7d".data)])) := by
  constructor
  · intro fenceLine c lang body closeLine rest counter hfence hbody hclose
    have h0 : ecbAux (fenceLine :: (body ++ closeLine :: rest)) counter none =
        ecbAux (body ++ closeLine :: rest) counter (some (c, lang, [])) := by
      simp [ecbAux, hfence]
    rw [h0, ecb_collect c lang body [] closeLine rest counter hbody hclose]
    simp [mkBlock]
  · intro fenceLine c lang body counter hfence hbody
    have h0 : ecbAux (fenceLine :: body) counter none =
        ecbAux body counter (some (c, lang, [])) := by
      simp [ecbAux, hfence]
    rw [h0, ecb_collect_eof c lang body [] counter hbody]
    simp [mkBlock]

/-- C4 (witness): both parts at a concrete block: ```` ```py ```` opener,
body `x`, closed (part 1) and unclosed (part 2). -/
theorem c4_extract_code_blocks_witness :
    ecbAux ["```py".data, "x".data, "```".data] 0 none =
      ([ph phCB 0],
       [(ph phCB 0, "\x7bcode:language=py\x7d\nx\n\x7bcode\x7d".data)]) ∧
    ecbAux ["```".data, "x".data] 0 none =
      ([ph phCB 0], [(ph phCB 0, "\x7bcode\x7d\nx\n\x7bcode\x7d".data)]) := by
  constructor
  · have h := c4_extract_code_blocks.1 "```py".data '`' "py".data ["x".data] "```".data [] 0
      (by decide) (by decide) (by decide)
    simpa using h
  · have h := c4_extract_code_blocks.2 "```".data '`' [] ["x".data] 0 (by decide) (by decide)
    simpa using h

/-- C2: code-fence content protection.  (1) `_process_block_structure`
passes any line carrying a code-block placeholder through untouched
(flushing the table buffer and resetting the list stack); (2) the per-line
inline pipeline of `convert` passes such lines through untouched, so no
inline-formatting rewrite is applied to them; (3) end to end, for any
fenced block body (break-free lines, none a closing fence) — e.g. one
containing `**not bold**` — `convert` reproduces the body
character-for-character inside the `\x7bcode\x7d` wrapper. -/
theorem c2_code_fence_protection :
    (∀ (l : List Char) (rest : List (List Char)) (stack : List LType) (buf : List (List Char)),
      containsSub phCB l = true →
      pbsAux (l :: rest) stack buf = processTable buf ++ l :: pbsAux rest [] []) ∧
    (∀ (l : List Char) (rest : List (List Char)) (lm im : List (List Char × List Char)),
      containsSub phCB l = true →
      processInlineLines (l :: rest) lm im =
        (l :: (processInlineLines rest lm im).1,
         (processInlineLines rest lm im).2.1, (processInlineLines rest lm im).2.2)) ∧
    (∀ body : List (List Char),
      (∀ b ∈ body, (∀ c ∈ b, isLineBreakChar c = false) ∧ isCloseFence '`' b = false) →
      convert ⟨joinLines ("```".data :: body ++ ["```".data])⟩ =
        ⟨"\x7bcode\x7d\n".data ++ joinLines body ++ '\n' :: "\x7bcode\x7d".data⟩) := by
  refine ⟨?parta, ?partb, ?partc⟩
  case parta =>
    intro l rest stack buf h
    simp [pbsAux, h]
  case partb =>
    intro l rest lm im h
    rcases h2 : processInlineLines rest lm im with ⟨rs, lm', im'⟩
    simp [processInlineLines, h, h2]
  case partc =>
    intro body hbody
    have hsplit : splitlines (joinLines ("```".data :: body ++ ["```".data])) =
        "```".data :: body ++ ["```".data] := by
      have hx := splitlines_joinLines ("```".data :: body) "```".data
        (by
          intro x hx c hc
          rcases List.mem_cons.mp hx with rfl | hx'
          · exact (by decide : ∀ c ∈ "```".data, isLineBreakChar c = false) c hc
          · exact (hbody x hx').1 c hc)
        (by decide) (by decide)
      simpa using hx
    have hfence : fenceStartMatch "```".data = some ('`', []) := by decide
    have hecb : extractCodeBlocks ("```".data :: body ++ ["```".data]) =
        ([ph phCB 0], [(ph phCB 0, mkBlock [] body)]) := by
      unfold extractCodeBlocks
      rw [List.cons_append]
      have h2 : ecbAux ("```".data :: (body ++ ["```".data])) 0 none =
          ecbAux (body ++ ["```".data]) 0 (some ('`', [], [])) := by
        simp [ecbAux, hfence]
      rw [h2]
      have h3 := ecb_collect '`' [] body [] "```".data [] 0
        (fun b hb => (hbody b hb).2) (by decide)
      simpa [ecbAux] using h3
    have hpbs : processBlockStructure [ph phCB 0] = [ph phCB 0] := by decide
    have hpil : processInlineLines [ph phCB 0] [] [] = ([ph phCB 0], [], []) := by decide
    have hlast : (joinLines ("```".data :: body ++ ["```".data])).getLast? = some '`' := by
      have := joinLines_getLast? ("```".data :: body) "```".data (by decide)
      simpa using this
    rw [convert_def]
    simp only [String.data]
    rw [hsplit, hecb]
    simp only []
    rw [hpbs, hpil]
    simp only []
    rw [if_neg (by rw [hlast]; decide)]
    have : joinLines [ph phCB 0] = ph phCB 0 := rfl
    rw [this]
    have hrest : restorePlaceholders (ph phCB 0) [(ph phCB 0, mkBlock [] body)] =
        mkBlock [] body := by
      unfold restorePlaceholders
      rw [List.foldl_cons, List.foldl_nil]
      exact replaceAll_self _ _ (by decide)
    rw [hrest]
    simp [mkBlock]

/-- C2 (witness): part 3 applied to the body `**not bold**`. -/
theorem c2_code_fence_protection_witness :
    convert ⟨joinLines ("```".data :: ["**not bold**".data] ++ ["```".data])⟩ =
      ⟨"\x7bcode\x7d\n".data ++ joinLines ["**not bold**".data] ++ '\n' :: "\x7bcode\x7d".data⟩ :=
  c2_code_fence_protection.2.2 ["**not bold**".data] (by decide)

/-! ## C5: tables -/

theorem lstripWS_eq_self (l : List Char)
    (h : ∀ c, l.head? = some c → isSpaceChar c = false) : lstripWS l = l := by
  cases l with
  | nil => rfl
  | cons c r =>
    unfold lstripWS
    rw [List.dropWhile_cons, if_neg (by simp [h c rfl])]

theorem rstripWS_eq_self (l : List Char)
    (h : ∀ c, l.getLast? = some c → isSpaceChar c = false) : rstripWS l = l := by
  unfold rstripWS
  rcases hrev : l.reverse with _ | ⟨d, rest⟩
  · simp [List.reverse_eq_nil_iff.mp hrev]
  · have hd : l.getLast? = some d := by
      rw [← List.head?_reverse, hrev, List.head?_cons]
    rw [List.dropWhile_cons, if_neg (by simp [h d hd])]
    rw [← hrev, List.reverse_reverse]

theorem stripWS_eq_self (l : List Char)
    (h1 : ∀ c, l.head? = some c → isSpaceChar c = false)
    (h2 : ∀ c, l.getLast? = some c → isSpaceChar c = false) : stripWS l = l := by
  unfold stripWS
  rw [lstripWS_eq_self l h1, rstripWS_eq_self l h2]

theorem formatTableRow_eq_spec (r : List Char) (b : Bool) (h : tableRowMatch r = true) :
    formatTableRow r b = formatTableRowSpec r b := by
  unfold formatTableRow formatTableRowSpec
  simp only [tableRowMatch, Bool.and_eq_true, decide_eq_true_eq] at h
  rw [stripWS_eq_self r
    (fun c hc => by rw [h.1.2] at hc; cases hc; decide)
    (fun c hc => by rw [h.2] at hc; cases hc; decide)]

theorem processTable_cons_sep (r : List Char) (rows : List (List Char))
    (hr : tableSepMatch r = true) :
    processTable (r :: rows) =
      (rows.filter (fun x => !tableSepMatch x)).map (fun x => formatTableRow x false) := by
  unfold processTable
  rw [List.findIdx?_cons, if_pos hr]
  simp

theorem processTable_cons_none (r : List Char) (rows : List (List Char))
    (hr : tableSepMatch r = false) (hfi : rows.findIdx? tableSepMatch = none) :
    processTable (r :: rows) = (r :: rows).map (fun x => formatTableRow x false) := by
  unfold processTable
  rw [List.findIdx?_cons, if_neg (by simp [hr]), List.findIdx?_succ, hfi]
  rfl

theorem processTable_cons_some (r : List Char) (rows : List (List Char)) (i : Nat)
    (hr : tableSepMatch r = false) (hfi : rows.findIdx? tableSepMatch = some i) :
    processTable (r :: rows) = formatTableRow r true :: processTable rows := by
  unfold processTable
  rw [List.findIdx?_cons, if_neg (by simp [hr]), List.findIdx?_succ, hfi]
  simp [List.take_succ_cons, List.drop_succ_cons]

theorem processTable_eq_spec (rows : List (List Char))
    (h : ∀ r ∈ rows, tableRowMatch r = true) : processTable rows = processTableSpec rows := by
  induction rows with
  | nil => rfl
  | cons r rows ih =>
    by_cases hr : tableSepMatch r = true
    · rw [processTable_cons_sep r rows hr]
      unfold processTableSpec
      rw [if_pos (by simp [hr])]
      rw [List.takeWhile_cons, if_neg (by simp [hr]), List.dropWhile_cons,
        if_neg (by simp [hr])]
      simp only [List.map_nil, List.nil_append, List.tail_cons]
      apply List.map_congr_left
      intro a ha
      refine formatTableRow_eq_spec a false (h a ?_)
      simp only [List.mem_filter] at ha
      simp [ha.1]
    · have hrf : tableSepMatch r = false := by simpa using hr
      rcases hfi : rows.findIdx? tableSepMatch with _ | i
      · have hnone : ∀ x ∈ rows, tableSepMatch x = false := by
          intro x hx
          simpa using List.findIdx?_eq_none_iff.mp hfi x hx
        rw [processTable_cons_none r rows hrf hfi]
        unfold processTableSpec
        rw [if_neg (by
          simp only [List.any_cons, Bool.or_eq_true, List.any_eq_true]
          rintro (hx | ⟨x, hx, hpx⟩)
          · exact absurd hx (by simp [hrf])
          · exact absurd hpx (by simp [hnone x hx]))]
        apply List.map_congr_left
        intro a ha
        exact formatTableRow_eq_spec a false (h a ha)
      · have hany : rows.any tableSepMatch = true := by
          rcases List.findIdx?_eq_some_iff_getElem.mp hfi with ⟨hlt, hpi, -⟩
          exact List.any_eq_true.mpr ⟨rows[i], List.getElem_mem hlt, hpi⟩
        rw [processTable_cons_some r rows i hrf hfi,
          ih (fun x hx => h x (by simp [hx]))]
        unfold processTableSpec
        rw [if_pos hany]
        rw [if_pos (show (r :: rows).any tableSepMatch = true by simp [List.any_cons, hany])]
        rw [List.takeWhile_cons, if_pos (by simp [hrf]), List.dropWhile_cons,
          if_pos (by simp [hrf])]
        rw [formatTableRow_eq_spec r true (h r (by simp))]
        simp
end Md2Markup

namespace Md2Markup
/-- C5: table conversion.  (1) Flushing a buffered run of table rows
(`processTable`) follows the spec: with a separator row present, every row
before the first separator is emitted as a header row, every non-separator
row after it as a body row, separator rows are dropped; with no separator
every buffered row is a body row.  (2) Row formatting strips one leading
and one trailing pipe, splits on pipes, trims each cell with `stripWS`, and
joins/wraps with `||` (header) or `|` (body). -/
theorem c5_tables :
    (∀ rows : List (List Char), (∀ r ∈ rows, tableRowMatch r = true) →
      processTable rows = processTableSpec rows) ∧
    (∀ (mid : List Char) (header : Bool),
      formatTableRow ('|' :: (mid ++ ['|'])) header =
        (if header then "||".data else "|".data) ++
          joinWith (if header then "||".data else "|".data) ((splitOnPipe mid).map stripWS) ++
          (if header then "||".data else "|".data)) := by
  constructor
  · exact processTable_eq_spec
  · intro mid header
    unfold formatTableRow
    rw [stripWS_eq_self ('|' :: (mid ++ ['|']))
      (fun c hc => by cases hc; decide)
      (fun c hc => by
        rw [← List.cons_append, List.getLast?_concat] at hc
        cases hc
        decide)]
    simp only [List.head?_cons, List.tail_cons, if_true]
    rw [if_pos (List.getLast?_concat mid)]
    have hdl : (mid ++ ['|']).dropLast = mid := by
      rw [List.dropLast_concat]
    rw [hdl]

/-- C5 (witness): part 1 applied to a concrete 3-row table, whose output is
`||A||B||` then `|1|2|`. -/
theorem c5_tables_witness :
    processTable ["| A | B |".data, "|---|---|".data, "| 1 | 2 |".data] =
      processTableSpec ["| A | B |".data, "|---|---|".data, "| 1 | 2 |".data] ∧
    processTable ["| A | B |".data, "|---|---|".data, "| 1 | 2 |".data] =
      ["||A||B||".data, "|1|2|".data] :=
  ⟨c5_tables.1 _ (by decide), by decide⟩

/-! ## C6 and C7: list items and task markers -/

theorem headingMatch_none_of_head (l : List Char) (c : Char) (hc : l.head? = some c)
    (h : c ≠ '#') : headingMatch l = none := by
  cases l with
  | nil => rfl
  | cons a rest =>
    simp only [List.head?_cons, Option.some.injEq] at hc
    subst hc
    unfold headingMatch
    rw [List.takeWhile_cons, if_neg (by simp [h])]

theorem bqMatch_none_of_head (l : List Char) (c : Char) (hc : l.head? = some c)
    (h : c ≠ '>') : bqMatch l = none := by
  cases l with
  | nil => rfl
  | cons a rest =>
    simp only [List.head?_cons, Option.some.injEq] at hc
    subst hc
    rw [bqMatch.eq_def]
    split
    · rename_i rest' heq
      injection heq with h1 h2
      exact absurd h1 h
    · rfl

theorem ulMatch_head (l : List Char) (p : Nat × List Char) (h : ulMatch l = some p) :
    ∃ c, l.head? = some c ∧ (isSpaceChar c = true ∨ c = '-' ∨ c = '*' ∨ c = '+') := by
  unfold ulMatch at h
  cases l with
  | nil => simp at h
  | cons a rest =>
    refine ⟨a, rfl, ?_⟩
    by_cases hsp : isSpaceChar a = true
    · exact Or.inl hsp
    · right
      rw [List.takeWhile_cons, if_neg (by simp [hsp])] at h
      simp only [List.length_nil, List.drop_zero] at h
      cases rest with
      | nil => simp at h
      | cons b rest2 =>
        simp only [] at h
        split at h
        · rename_i hcond
          rw [Bool.and_eq_true, Bool.or_eq_true, Bool.or_eq_true,
            decide_eq_true_eq, decide_eq_true_eq, decide_eq_true_eq] at hcond
          tauto
        · simp at h

theorem olMatch_head (l : List Char) (p : Nat × List Char) (h : olMatch l = some p) :
    ∃ c, l.head? = some c ∧ (isSpaceChar c = true ∨ c.isDigit = true) := by
  cases l with
  | nil => simp [olMatch] at h
  | cons a rest =>
    refine ⟨a, rfl, ?_⟩
    by_cases hsp : isSpaceChar a = true
    · exact Or.inl hsp
    · by_cases hd : a.isDigit = true
      · exact Or.inr hd
      · exfalso
        have hnone : olMatch (a :: rest) = none := by
          simp [olMatch, List.takeWhile_cons, hsp, hd]
        rw [hnone] at h
        exact Option.noConfusion h

theorem ulMatch_indent (l : List Char) (indent : Nat) (content : List Char)
    (h : ulMatch l = some (indent, content)) :
    indent = (l.takeWhile isSpaceChar).length := by
  unfold ulMatch at h
  simp only [] at h
  split at h
  · split at h
    · simp only [Option.some.injEq, Prod.mk.injEq] at h
      exact h.1.symm
    · simp at h
  · simp at h

theorem olMatch_indent (l : List Char) (indent : Nat) (content : List Char)
    (h : olMatch l = some (indent, content)) :
    indent = (l.takeWhile isSpaceChar).length := by
  unfold olMatch at h
  simp only [] at h
  split at h
  · simp at h
  · split at h
    · split at h
      · simp only [Option.some.injEq, Prod.mk.injEq] at h
        exact h.1.symm
      · simp at h
    · simp at h

theorem ulMatch_marker (l : List Char) (p : Nat × List Char) (h : ulMatch l = some p) :
    ∃ m rest, l.drop (l.takeWhile isSpaceChar).length = m :: rest ∧
      (m = '-' ∨ m = '*' ∨ m = '+') := by
  unfold ulMatch at h
  simp only [] at h
  split at h
  · rename_i m c rest heq
    split at h
    · rename_i hcond
      rw [Bool.and_eq_true, Bool.or_eq_true, Bool.or_eq_true,
        decide_eq_true_eq, decide_eq_true_eq, decide_eq_true_eq] at hcond
      exact ⟨m, c :: rest, heq, by tauto⟩
    · simp at h
  · simp at h

theorem olMatch_digit (l : List Char) (p : Nat × List Char) (h : olMatch l = some p) :
    ∃ d rest, l.drop (l.takeWhile isSpaceChar).length = d :: rest ∧ d.isDigit = true := by
  unfold olMatch at h
  simp only [] at h
  split at h
  · simp at h
  · rename_i hdig
    rcases hr1 : l.drop (l.takeWhile isSpaceChar).length with _ | ⟨d, rest⟩
    · rw [hr1] at hdig
      simp at hdig
    · refine ⟨d, rest, rfl, ?_⟩
      rw [hr1, List.takeWhile_cons] at hdig
      by_cases hd : d.isDigit = true
      · exact hd
      · rw [if_neg (by simp [hd])] at hdig
        exact absurd rfl hdig
theorem blockLine_ul (l : List Char) (stack : List LType) (indent : Nat) (content : List Char)
    (h : ulMatch l = some (indent, content)) :
    blockLine l stack =
      ((match taskChecked content with
        | some rest =>
          listMarks ((updateStack stack (indent / 2 + 1) LType.ul).take (indent / 2 + 1)) ++
            " (/) ".data ++ rest
        | none =>
          match taskUnchecked content with
          | some rest =>
            listMarks ((updateStack stack (indent / 2 + 1) LType.ul).take (indent / 2 + 1)) ++
              " ( ) ".data ++ rest
          | none =>
            listMarks ((updateStack stack (indent / 2 + 1) LType.ul).take (indent / 2 + 1)) ++
              ' ' :: content),
       updateStack stack (indent / 2 + 1) LType.ul) := by
  obtain ⟨c, hc, hcs⟩ := ulMatch_head l (indent, content) h
  have hne1 : c ≠ '#' := by
    rcases hcs with hsp | rfl | rfl | rfl
    · intro hx; subst hx; exact absurd hsp (by decide)
    all_goals decide
  have hne2 : c ≠ '>' := by
    rcases hcs with hsp | rfl | rfl | rfl
    · intro hx; subst hx; exact absurd hsp (by decide)
    all_goals decide
  unfold blockLine
  rw [headingMatch_none_of_head l c hc hne1]
  simp only []
  rw [if_neg (by simp [h])]
  rw [bqMatch_none_of_head l c hc hne2]
  simp only []
  rw [h]

theorem blockLine_ol (l : List Char) (stack : List LType) (indent : Nat) (content : List Char)
    (h : olMatch l = some (indent, content)) :
    blockLine l stack =
      (listMarks ((updateStack stack (indent / 2 + 1) LType.ol).take (indent / 2 + 1)) ++
         ' ' :: content,
       updateStack stack (indent / 2 + 1) LType.ol) := by
  obtain ⟨c, hc, hcs⟩ := olMatch_head l (indent, content) h
  have hne1 : c ≠ '#' := by
    rcases hcs with hsp | hdg
    · intro hx; subst hx; exact absurd hsp (by decide)
    · intro hx; subst hx; exact absurd hdg (by decide)
  have hne2 : c ≠ '>' := by
    rcases hcs with hsp | hdg
    · intro hx; subst hx; exact absurd hsp (by decide)
    · intro hx; subst hx; exact absurd hdg (by decide)
  have hul : ulMatch l = none := by
    rcases hm : ulMatch l with _ | p
    · rfl
    · exfalso
      obtain ⟨m, rest1, heq1, hms⟩ := ulMatch_marker l p hm
      obtain ⟨d, rest2, heq2, hd⟩ := olMatch_digit l (indent, content) h
      rw [heq1] at heq2
      injection heq2 with hmd
      subst hmd
      rcases hms with rfl | rfl | rfl
      all_goals exact absurd hd (by decide)
  unfold blockLine
  rw [headingMatch_none_of_head l c hc hne1]
  simp only []
  rw [if_neg (by simp [hul, h])]
  rw [bqMatch_none_of_head l c hc hne2]
  simp only []
  rw [hul]
  simp only []
  rw [h]
/-- C6 (counterexample): the claim computes nesting depth from the count of
leading *space* characters, but the code counts the whole `\s*` group, tabs
included: for the line `"\t\t- a"` the code emits depth-2 `** a`, while the
claim's spaces-based formula gives depth 1, whose emission would be `* a`. -/
theorem c6_counterexample :
    processBlockStructure ["\t\t- a".data] = ["** a".data] ∧
    ("\t\t- a".data.takeWhile (fun c => c = ' ')).length / 2 + 1 = 1 ∧
    "** a".data ≠ listMarks (updateStack [] 1 LType.ul) ++ ' ' :: "a".data := by
  refine ⟨by decide, by decide, by decide⟩

/-- C6 (amended): nesting depth equals (count of leading whitespace
characters, as matched by `\s*`) / 2 + 1; the list stack is truncated or
extended to that depth with the entry at that depth marked with the item's
type; the emitted item starts with one `*`/`#` mark per stack entry up to
the depth.  Concretely, 2 spaces of indent nest one level deeper per level,
and an ordered item one level under an unordered item gets the two-character
`*#` mark sequence. -/
theorem c6_list_nesting :
    (∀ (l : List Char) (stack : List LType) (indent : Nat) (content : List Char),
      ulMatch l = some (indent, content) →
      indent = (l.takeWhile isSpaceChar).length ∧
      (blockLine l stack).2 = updateStack stack (indent / 2 + 1) LType.ul ∧
      ∃ t, (blockLine l stack).1 =
        listMarks ((updateStack stack (indent / 2 + 1) LType.ul).take (indent / 2 + 1)) ++
          ' ' :: t) ∧
    (∀ (l : List Char) (stack : List LType) (indent : Nat) (content : List Char),
      olMatch l = some (indent, content) →
      indent = (l.takeWhile isSpaceChar).length ∧
      blockLine l stack =
        (listMarks ((updateStack stack (indent / 2 + 1) LType.ol).take (indent / 2 + 1)) ++
           ' ' :: content,
         updateStack stack (indent / 2 + 1) LType.ol)) ∧
    processBlockStructure ["- a".data, "  - b".data, "    - c".data] =
      ["* a".data, "** b".data, "*** c".data] ∧
    processBlockStructure ["- a".data, "  1. b".data] = ["* a".data, "*# b".data] := by
  refine ⟨?_, ?_, by decide, by decide⟩
  · intro l stack indent content h
    refine ⟨ulMatch_indent l indent content h, ?_, ?_⟩
    · rw [blockLine_ul l stack indent content h]
    · rw [blockLine_ul l stack indent content h]
      rcases h1 : taskChecked content with _ | r
      · rcases h2 : taskUnchecked content with _ | r
        · exact ⟨content, by simp [h1, h2]⟩
        · refine ⟨'(' :: ' ' :: ')' :: ' ' :: r, ?_⟩
          simp [h1, h2]
      · refine ⟨'(' :: '/' :: ')' :: ' ' :: r, ?_⟩
        simp [h1]
  · intro l stack indent content h
    exact ⟨olMatch_indent l indent content h, blockLine_ol l stack indent content h⟩

/-- C6 (witness): the unordered part applied to `"  - b"` under a one-entry
stack: the stack becomes `[ul, ul]`. -/
theorem c6_list_nesting_witness :
    (blockLine "  - b".data [LType.ul]).2 = updateStack [LType.ul] 2 LType.ul ∧
    updateStack [LType.ul] 2 LType.ul = [LType.ul, LType.ul] :=
  ⟨(c6_list_nesting.1 "  - b".data [LType.ul] 2 "b".data (by decide)).2.1, by decide⟩

/-- C7 (counterexample): the claim renders `[ ] `-marked content as
`<marks> ( ) <rest>` with `<rest>` the content after the 4-character marker,
but the task regexes end in a greedy `\s+`: on `"- [ ]  a"` (two spaces
after `[ ]`) the code emits `* ( ) a`, not the claimed `* ( )  a`. -/
theorem c7_counterexample :
    convert "- [ ]  a" = "* ( ) a" ∧ ("* ( ) a" : String) ≠ "* ( )  a" :=
  ⟨by decide, by decide⟩

/-- C7 (amended): for an unordered item whose content starts with
`[ ] ` the output is `<marks> ( ) <rest>`, and with `[x] ` or `[X] ` it is
`<marks> (/) <rest>`, where `<rest>` is the content after the marker with
any further whitespace following the marker removed (the marker's `\s+` is
greedy); ordered items are emitted verbatim as `<marks> <content>` with
task markers never special-cased. -/
theorem c7_task_markers :
    (∀ (l : List Char) (stack : List LType) (indent : Nat) (content rest : List Char),
      ulMatch l = some (indent, content) →
      ((content = '[' :: ' ' :: ']' :: ' ' :: rest →
        (blockLine l stack).1 =
          listMarks ((updateStack stack (indent / 2 + 1) LType.ul).take (indent / 2 + 1)) ++
            " ( ) ".data ++ rest.dropWhile isSpaceChar) ∧
       (content = '[' :: 'x' :: ']' :: ' ' :: rest →
        (blockLine l stack).1 =
          listMarks ((updateStack stack (indent / 2 + 1) LType.ul).take (indent / 2 + 1)) ++
            " (/) ".data ++ rest.dropWhile isSpaceChar) ∧
       (content = '[' :: 'X' :: ']' :: ' ' :: rest →
        (blockLine l stack).1 =
          listMarks ((updateStack stack (indent / 2 + 1) LType.ul).take (indent / 2 + 1)) ++
            " (/) ".data ++ rest.dropWhile isSpaceChar))) ∧
    (∀ (l : List Char) (stack : List LType) (indent : Nat) (content : List Char),
      olMatch l = some (indent, content) →
      (blockLine l stack).1 =
        listMarks ((updateStack stack (indent / 2 + 1) LType.ol).take (indent / 2 + 1)) ++
          ' ' :: content) ∧
    processBlockStructure ["1. [x] done".data] = ["# [x] done".data] := by
  refine ⟨?_, ?_, by decide⟩
  · intro l stack indent content rest h
    refine ⟨?_, ?_, ?_⟩
    · intro hct
      subst hct
      rw [blockLine_ul l stack indent _ h]
      simp [taskChecked, taskUnchecked, show isSpaceChar ' ' = true from by decide]
    · intro hct
      subst hct
      rw [blockLine_ul l stack indent _ h]
      simp [taskChecked, show isSpaceChar ' ' = true from by decide]
    · intro hct
      subst hct
      rw [blockLine_ul l stack indent _ h]
      simp [taskChecked, show isSpaceChar ' ' = true from by decide]
  · intro l stack indent content h
    rw [blockLine_ol l stack indent content h]

/-- C7 (witness): the checked-marker case applied to `"- [x] done"`. -/
theorem c7_task_markers_witness :
    (blockLine "- [x] done".data []).1 =
      listMarks ((updateStack [] 1 LType.ul).take 1) ++ " (/) ".data ++
        ("done".data.dropWhile isSpaceChar) ∧
    (blockLine "- [x] done".data []).1 = "* (/) done".data :=
  ⟨((c7_task_markers.1 "- [x] done".data [] 0 "[x] done".data "done".data
      (by decide)).2.1 (by decide)), by decide⟩

/-! ## C8 and C9: links, images and inline code -/

theorem fenceStartMatch_none_of_head (l : List Char) (c : Char) (hc : l.head? = some c)
    (h1 : c ≠ '`') (h2 : c ≠ '~') : fenceStartMatch l = none := by
  cases l with
  | nil => rfl
  | cons a rest =>
    simp only [List.head?_cons, Option.some.injEq] at hc
    subst hc
    simp [fenceStartMatch, h1, h2]

theorem hrMatch_false_of_head (l : List Char) (c : Char) (hc : l.head? = some c)
    (h1 : c ≠ '*') (h2 : c ≠ '-') (h3 : c ≠ '_') : hrMatch l = false := by
  cases l with
  | nil => rfl
  | cons a rest =>
    simp only [List.head?_cons, Option.some.injEq] at hc
    subst hc
    simp [hrMatch, h1, h2, h3]

theorem ulMatch_none_of_head (l : List Char) (c : Char) (hc : l.head? = some c)
    (hsp : isSpaceChar c = false) (h1 : c ≠ '-') (h2 : c ≠ '*') (h3 : c ≠ '+') :
    ulMatch l = none := by
  cases l with
  | nil => rfl
  | cons a rest =>
    simp only [List.head?_cons, Option.some.injEq] at hc
    subst hc
    cases rest with
    | nil => simp [ulMatch, List.takeWhile_cons, hsp]
    | cons b r => simp [ulMatch, List.takeWhile_cons, hsp, h1, h2, h3]

theorem olMatch_none_of_head (l : List Char) (c : Char) (hc : l.head? = some c)
    (hsp : isSpaceChar c = false) (hd : c.isDigit = false) : olMatch l = none := by
  cases l with
  | nil => rfl
  | cons a rest =>
    simp only [List.head?_cons, Option.some.injEq] at hc
    subst hc
    simp [olMatch, List.takeWhile_cons, hsp, hd]

theorem tableRowMatch_false_of_getLast (l : List Char) (c : Char) (hc : l.getLast? = some c)
    (h : c ≠ '|') : tableRowMatch l = false := by
  unfold tableRowMatch
  rw [hc]
  simp [h]

theorem containsSub_phCB_false (l : List Char) (h : '\x00' ∉ l) :
    containsSub phCB l = false := by
  rw [Bool.eq_false_iff]
  intro hx
  unfold containsSub at hx
  rw [List.any_eq_true] at hx
  obtain ⟨t, ht, hpre⟩ := hx
  rw [List.isPrefixOf_iff_prefix] at hpre
  obtain ⟨rest, hrest⟩ := hpre
  apply h
  rw [List.mem_tails] at ht
  apply ht.subset
  rw [← hrest]
  simp [phCB]

theorem blockLine_passthrough (l : List Char) (stack : List LType)
    (hhm : headingMatch l = none)
    (hhr : hrMatch l = false)
    (hbq : bqMatch l = none)
    (hul : ulMatch l = none)
    (hol : olMatch l = none) :
    blockLine l stack = (l, []) := by
  unfold blockLine
  rw [hhm]
  simp only []
  rw [if_neg (by simp [hhr])]
  rw [hbq]
  simp only []
  rw [hul]
  simp only []
  rw [hol]

theorem pbs_single_passthrough (l : List Char)
    (hph : containsSub phCB l = false)
    (htr : tableRowMatch l = false)
    (hhm : headingMatch l = none)
    (hhr : hrMatch l = false)
    (hbq : bqMatch l = none)
    (hul : ulMatch l = none)
    (hol : olMatch l = none) :
    processBlockStructure [l] = [l] := by
  unfold processBlockStructure pbsAux
  rw [hph]
  simp only [Bool.false_eq_true, if_false]
  rw [htr]
  simp only [Bool.false_eq_true, if_false]
  rw [blockLine_passthrough l [] hhm hhr hbq hul hol]
  simp [processTable, pbsAux]
theorem icSubAux_nil (fuel : Nat) (m : List (List Char × List Char)) :
    icSubAux fuel [] m = ([], m) := by
  cases fuel with
  | zero => rfl
  | succ n => rfl

theorem icPosMatch_mk (content rest : List Char) (h1 : content ≠ []) (h2 : '`' ∉ content) :
    icPosMatch ('`' :: (content ++ '`' :: rest)) = some (content, rest) := by
  unfold icPosMatch
  simp only [if_true]
  rw [takeWhile_append_stop _ content '`' rest
    (fun c hc => by simp; exact fun hx => h2 (hx ▸ hc)) (by simp)]
  rw [List.drop_left]
  simp [h1]

theorem extractInlineCode_single (content : List Char) (m : List (List Char × List Char))
    (h1 : content ≠ []) (h2 : '`' ∉ content) :
    extractInlineCode ('`' :: (content ++ ['`'])) m =
      (ph phIC m.length,
       m ++ [(ph phIC m.length, '\x7b' :: '\x7b' :: escapeBraces content ++ ['\x7d', '\x7d'])]) := by
  unfold extractInlineCode
  have hlen : ('`' :: (content ++ ['`'])).length = content.length + 1 + 1 := by
    simp
  rw [hlen]
  rw [icSubAux.eq_def]
  simp only []
  have hmk : icPosMatch ('`' :: (content ++ ['`'])) = some (content, []) :=
    icPosMatch_mk content [] h1 h2
  rw [hmk]
  simp only [icSubAux_nil]
  simp
theorem replaceAll_single_char (c : Char) (val : List Char) :
    ∀ l : List Char, replaceAll l [c] val =
      ((l.map (fun x => if x = c then val else [x])).flatten) := by
  have key : ∀ (l : List Char), replaceAllAux l.length l [c] val =
      ((l.map (fun x => if x = c then val else [x])).flatten) := by
    intro l
    induction l with
    | nil => rfl
    | cons x rest ih =>
      rw [List.length_cons, replaceAllAux.eq_def]
      simp only []
      by_cases hx : x = c
      · subst hx
        rw [if_pos (by simp [List.isPrefixOf_iff_prefix, List.prefix_iff_eq_take])]
        simp [ih]
      · rw [if_neg (by
          simp only [Bool.and_eq_true, decide_eq_true_eq, List.isPrefixOf_iff_prefix]
          rintro ⟨-, hpre⟩
          rw [List.cons_prefix_cons] at hpre
          exact hx hpre.1.symm)]
        simp [ih, hx]
  intro l
  exact key l

theorem double_replace_charwise : ∀ l : List Char,
    (((l.map (fun x => if x = '\x7b' then "&#123;".data else [x])).flatten.map
        (fun x => if x = '\x7d' then "&#125;".data else [x])).flatten) =
      ((l.map (fun c => if c = '\x7b' then "&#123;".data
        else if c = '\x7d' then "&#125;".data else [c])).flatten) := by
  intro l
  induction l with
  | nil => rfl
  | cons x rest ih =>
    simp only [List.map_cons, List.flatten_cons, List.map_append, List.flatten_append]
    rw [ih]
    congr 1
    by_cases h1 : x = '\x7b'
    · subst h1
      simp only [if_pos rfl]
      decide
    · by_cases h2 : x = '\x7d'
      · subst h2
        simp [h1]
      · simp [h1, h2]

theorem escapeBraces_charwise (content : List Char) :
    escapeBraces content =
      ((content.map (fun c => if c = '\x7b' then "&#123;".data
        else if c = '\x7d' then "&#125;".data else [c])).flatten) := by
  unfold escapeBraces
  by_cases h : content.any (fun c => c = '\x7b' || c = '\x7d') = true
  · rw [if_pos h]
    rw [replaceAll_single_char '\x7b' "&#123;".data content]
    rw [replaceAll_single_char '\x7d' "&#125;".data]
    exact double_replace_charwise content
  · rw [if_neg h]
    rw [Bool.not_eq_true, List.any_eq_false] at h
    induction content with
    | nil => rfl
    | cons x rest ih =>
      have hx := h x (by simp)
      simp only [Bool.or_eq_true, decide_eq_true_eq, not_or] at hx
      simp only [List.map_cons, List.flatten_cons]
      rw [if_neg hx.1, if_neg hx.2]
      rw [← ih (fun y hy => h y (by simp [hy]))]
      rfl
/-- C9: inline code spans.  (1) End to end, a backtick-delimited non-nested
span becomes `\x7b\x7b<content>\x7d\x7d` with the content brace-escaped;
(2) the escaping replaces every literal `\x7b` by `&#123;` and every
literal `\x7d` by `&#125;`, character by character; (3) content without
braces is wrapped unchanged. -/
theorem c9_inline_code :
    (∀ content : List Char, content ≠ [] → '`' ∉ content → '\x00' ∉ content →
      (∀ c ∈ content, isLineBreakChar c = false) →
      convert ⟨'`' :: (content ++ ['`'])⟩ =
        ⟨'\x7b' :: '\x7b' :: escapeBraces content ++ ['\x7d', '\x7d']⟩) ∧
    (∀ content : List Char,
      escapeBraces content =
        ((content.map (fun c => if c = '\x7b' then "&#123;".data
          else if c = '\x7d' then "&#125;".data else [c])).flatten)) ∧
    (∀ content : List Char, (∀ c ∈ content, c ≠ '\x7b' ∧ c ≠ '\x7d') →
      escapeBraces content = content) := by
  refine ⟨?_, escapeBraces_charwise, ?_⟩
  · intro content h1 h2 h0 h3
    have hclean : ∀ c ∈ '`' :: (content ++ ['`']), isLineBreakChar c = false := by
      intro c hc
      rcases List.mem_cons.mp hc with rfl | hc2
      · decide
      · rcases List.mem_append.mp hc2 with hc3 | hc3
        · exact h3 c hc3
        · simp only [List.mem_singleton] at hc3
          subst hc3
          decide
    have hsplit : splitlines ('`' :: (content ++ ['`'])) = ['`' :: (content ++ ['`'])] := by
      unfold splitlines
      rw [splitlinesAux_single _ [] (by simp) hclean]
      rfl
    obtain ⟨d, cs, rfl⟩ := List.exists_cons_of_ne_nil h1
    have hd : ¬(d = '`') := fun hx => h2 (by simp [hx])
    have hfence : fenceStartMatch ('`' :: ((d :: cs) ++ ['`'])) = none := by
      unfold fenceStartMatch
      simp [List.takeWhile_cons, hd]
    have hecb : extractCodeBlocks ['`' :: ((d :: cs) ++ ['`'])] =
        (['`' :: ((d :: cs) ++ ['`'])], []) := by
      unfold extractCodeBlocks
      rw [ecbAux.eq_def]
      simp only [hfence]
      rfl
    have hlastc : ('`' :: ((d :: cs) ++ ['`'])).getLast? = some '`' := by
      rw [← List.cons_append, List.getLast?_concat]
    have hnull : '\x00' ∉ '`' :: ((d :: cs) ++ ['`']) := by
      intro hx
      rcases List.mem_cons.mp hx with hx1 | hx2
      · exact absurd hx1.symm (by decide)
      · rcases List.mem_append.mp hx2 with hx3 | hx3
        · exact h0 hx3
        · simp only [List.mem_singleton] at hx3
          exact absurd hx3.symm (by decide)
    have hpbs : processBlockStructure ['`' :: ((d :: cs) ++ ['`'])] =
        ['`' :: ((d :: cs) ++ ['`'])] := by
      refine pbs_single_passthrough _ (containsSub_phCB_false _ hnull)
        (tableRowMatch_false_of_getLast _ '`' hlastc (by decide))
        (headingMatch_none_of_head _ '`' rfl (by decide))
        (hrMatch_false_of_head _ '`' rfl (by decide) (by decide) (by decide))
        (bqMatch_none_of_head _ '`' rfl (by decide))
        (ulMatch_none_of_head _ '`' rfl (by decide) (by decide) (by decide) (by decide))
        (olMatch_none_of_head _ '`' rfl (by decide) (by decide))
    have hic := extractInlineCode_single (d :: cs) [] h1 h2
    have hpil : processInlineLines ['`' :: ((d :: cs) ++ ['`'])] [] [] =
        (['\x7b' :: '\x7b' :: escapeBraces (d :: cs) ++ ['\x7d', '\x7d']], [],
          [(ph phIC 0, '\x7b' :: '\x7b' :: escapeBraces (d :: cs) ++ ['\x7d', '\x7d'])]) := by
      rw [processInlineLines]
      rw [if_neg (by rw [containsSub_phCB_false _ hnull]; simp)]
      simp only [List.length_nil, List.nil_append] at hic
      rw [hic]
      simp only []
      have hlk : extractLinks (ph phIC 0) [] = (ph phIC 0, []) := by decide
      rw [hlk]
      simp only []
      have hfmt : processInlineFormatting (ph phIC 0) = ph phIC 0 := by decide
      rw [hfmt]
      have hr1 : restorePlaceholders (ph phIC 0) [] = ph phIC 0 := rfl
      rw [hr1]
      have hr2 : restorePlaceholders (ph phIC 0)
          [(ph phIC 0, '\x7b' :: '\x7b' :: escapeBraces (d :: cs) ++ ['\x7d', '\x7d'])] =
          '\x7b' :: '\x7b' :: escapeBraces (d :: cs) ++ ['\x7d', '\x7d'] := by
        unfold restorePlaceholders
        rw [List.foldl_cons, List.foldl_nil]
        exact replaceAll_self _ _ (by decide)
      rw [hr2]
      rfl
    rw [convert_def]
    simp only []
    rw [hsplit, hecb]
    simp only []
    rw [hpbs, hpil]
    simp only []
    rw [if_neg (by rw [hlastc]; decide)]
    rfl
  · intro content h
    unfold escapeBraces
    rw [if_neg (by
      intro hx
      rw [List.any_eq_true] at hx
      obtain ⟨x, hxm, hb⟩ := hx
      rw [Bool.or_eq_true, decide_eq_true_eq, decide_eq_true_eq] at hb
      rcases hb with hb | hb
      · exact (h x hxm).1 hb
      · exact (h x hxm).2 hb)]
/-- C9 (witness): part 1 applied to the content `a\x7bb\x7dc`, which
renders as `\x7b\x7ba&#123;b&#125;c\x7d\x7d`. -/
theorem c9_inline_code_witness :
    convert ⟨'`' :: ("a\x7bb\x7dc".data ++ ['`'])⟩ =
      ⟨'\x7b' :: '\x7b' :: escapeBraces "a\x7bb\x7dc".data ++ ['\x7d', '\x7d']⟩ ∧
    convert "`a\x7bb\x7dc`" = "\x7b\x7ba&#123;b&#125;c\x7d\x7d" :=
  ⟨c9_inline_code.1 "a\x7bb\x7dc".data (by decide) (by decide) (by decide) (by decide),
   by decide⟩

theorem getLast?_append_of_ne_nil (l1 l2 : List Char) (h : l2 ≠ []) :
    (l1 ++ l2).getLast? = l2.getLast? := by
  induction l1 with
  | nil => rfl
  | cons x l1 ih =>
    rw [List.cons_append, getLast?_cons_of_ne_nil x (l1 ++ l2) (by
      intro hx
      rcases List.append_eq_nil.mp hx with ⟨-, h2⟩
      exact h h2), ih]

theorem linkSubAux_nil (fuel : Nat) (m : List (List Char × List Char)) :
    linkSubAux fuel [] m = ([], m) := by
  cases fuel with
  | zero => rfl
  | succ n => rfl

theorem imgSubAux_nil (fuel : Nat) (m : List (List Char × List Char)) :
    imgSubAux fuel [] m = ([], m) := by
  cases fuel with
  | zero => rfl
  | succ n => rfl

theorem linkPosMatch_mk (t u rest : List Char) (ht : ']' ∉ t) (hu : ')' ∉ u)
    (hune : u ≠ []) :
    linkPosMatch ('[' :: (t ++ ']' :: '(' :: (u ++ ')' :: rest))) = some (t, u, rest) := by
  unfold linkPosMatch
  simp only []
  rw [takeWhile_append_stop _ t ']' _
    (fun c hc => by simp only [decide_eq_true_eq]; exact fun hx => ht (hx ▸ hc)) (by simp)]
  rw [List.drop_left]
  simp only []
  rw [takeWhile_append_stop _ u ')' rest
    (fun c hc => by simp only [decide_eq_true_eq]; exact fun hx => hu (hx ▸ hc)) (by simp)]
  rw [List.drop_left]
  simp [hune]

theorem imgPosMatch_mk (a u rest : List Char) (ha : ']' ∉ a) (hu : ')' ∉ u)
    (hune : u ≠ []) :
    imgPosMatch ('!' :: '[' :: (a ++ ']' :: '(' :: (u ++ ')' :: rest))) =
      some (a, u, rest) := by
  unfold imgPosMatch
  simp only []
  rw [takeWhile_append_stop _ a ']' _
    (fun c hc => by simp only [decide_eq_true_eq]; exact fun hx => ha (hx ▸ hc)) (by simp)]
  rw [List.drop_left]
  simp only []
  rw [takeWhile_append_stop _ u ')' rest
    (fun c hc => by simp only [decide_eq_true_eq]; exact fun hx => hu (hx ▸ hc)) (by simp)]
  rw [List.drop_left]
  simp [hune]

theorem extractLinks_single_link (t u : List Char)
    (ht1 : ']' ∉ t) (hu1 : ')' ∉ u) (hune : u ≠ [])
    (hnotbang : '!' ∉ '[' :: (t ++ ']' :: '(' :: (u ++ [')']))) :
    extractLinks ('[' :: (t ++ ']' :: '(' :: (u ++ [')']))) [] =
      (ph phLK 0, [(ph phLK 0, '[' :: (t ++ '|' :: (u ++ [']'])))]) := by
  unfold extractLinks
  rw [imgSubAux_id _ _ []
    (fun tl htl => imgPosMatch_none tl (tail_head_ne htl hnotbang))]
  simp only []
  have hlen : ('[' :: (t ++ ']' :: '(' :: (u ++ [')']))).length =
      (t.length + u.length + 3) + 1 := by
    simp [List.length_append]
    omega
  rw [hlen, linkSubAux.eq_def]
  simp only []
  rw [linkPosMatch_mk t u [] ht1 hu1 hune]
  simp [linkSubAux_nil]

theorem extractLinks_single_img (a u : List Char)
    (ha : ']' ∉ a) (hu1 : ')' ∉ u) (hune : u ≠ []) :
    extractLinks ('!' :: '[' :: (a ++ ']' :: '(' :: (u ++ [')']))) [] =
      (ph phLK 0, [(ph phLK 0, '!' :: (u ++ ['!']))]) := by
  unfold extractLinks
  have hlen : ('!' :: '[' :: (a ++ ']' :: '(' :: (u ++ [')']))).length =
      (a.length + u.length + 4) + 1 := by
    simp [List.length_append]
    omega
  rw [hlen, imgSubAux.eq_def]
  simp only []
  rw [imgPosMatch_mk a u [] ha hu1 hune]
  simp only [imgSubAux_nil, List.append_nil, List.nil_append]
  rw [linkSubAux_id _ _ _
    (fun tl htl => linkPosMatch_none tl (tail_head_ne htl (by decide)))]
  simp
/-- C8: links and images.  End to end, `[text](url)` becomes `[text|url]`
and `![alt](url)` becomes `!url!` with the alt text discarded; the image is
consumed by the image pass before the link pass can see its `[alt](url)`
suffix (otherwise the output would keep a stray `!`).  The url hypotheses
allow underscores, so the `_`s of a URL are never rewritten as italics. -/
theorem c8_links_images :
    (∀ t u : List Char,
      ']' ∉ t → '!' ∉ t → '`' ∉ t → '\x00' ∉ t → (∀ c ∈ t, isLineBreakChar c = false) →
      ')' ∉ u → '!' ∉ u → '`' ∉ u → '\x00' ∉ u → (∀ c ∈ u, isLineBreakChar c = false) →
      u ≠ [] →
      convert ⟨'[' :: (t ++ ']' :: '(' :: (u ++ [')']))⟩ =
        ⟨'[' :: (t ++ '|' :: (u ++ [']']))⟩) ∧
    (∀ a u : List Char,
      ']' ∉ a → '`' ∉ a → '\x00' ∉ a → (∀ c ∈ a, isLineBreakChar c = false) →
      ')' ∉ u → '`' ∉ u → '\x00' ∉ u → (∀ c ∈ u, isLineBreakChar c = false) →
      u ≠ [] →
      convert ⟨'!' :: '[' :: (a ++ ']' :: '(' :: (u ++ [')']))⟩ =
        ⟨'!' :: (u ++ ['!'])⟩) := by
  constructor
  · intro t u ht1 ht2 ht3 ht4 ht5 hu1 hu2 hu3 hu4 hu5 hune
    have hmem : ∀ x : Char, x ∈ '[' :: (t ++ ']' :: '(' :: (u ++ [')'])) →
        x = '[' ∨ x ∈ t ∨ x = ']' ∨ x = '(' ∨ x ∈ u ∨ x = ')' := by
      intro x hx
      simp only [List.mem_cons, List.mem_append, List.mem_singleton] at hx
      tauto
    have hclean : ∀ c ∈ '[' :: (t ++ ']' :: '(' :: (u ++ [')'])), isLineBreakChar c = false := by
      intro c hc
      rcases hmem c hc with rfl | h | rfl | rfl | h | rfl
      · decide
      · exact ht5 c h
      · decide
      · decide
      · exact hu5 c h
      · decide
    have hsplit : splitlines ('[' :: (t ++ ']' :: '(' :: (u ++ [')']))) =
        ['[' :: (t ++ ']' :: '(' :: (u ++ [')']))] := by
      unfold splitlines
      rw [splitlinesAux_single _ [] (by simp) hclean]
      rfl
    have hfence : fenceStartMatch ('[' :: (t ++ ']' :: '(' :: (u ++ [')']))) = none :=
      fenceStartMatch_none_of_head _ '[' rfl (by decide) (by decide)
    have hecb : extractCodeBlocks ['[' :: (t ++ ']' :: '(' :: (u ++ [')']))] =
        (['[' :: (t ++ ']' :: '(' :: (u ++ [')']))], []) := by
      unfold extractCodeBlocks
      rw [ecbAux.eq_def]
      simp only [hfence]
      rfl
    have hnull : '\x00' ∉ '[' :: (t ++ ']' :: '(' :: (u ++ [')'])) := by
      intro hx
      rcases hmem _ hx with h | h | h | h | h | h
      · exact absurd h (by decide)
      · exact ht4 h
      · exact absurd h (by decide)
      · exact absurd h (by decide)
      · exact hu4 h
      · exact absurd h (by decide)
    have hlast : ('[' :: (t ++ ']' :: '(' :: (u ++ [')']))).getLast? = some ')' := by
      rw [getLast?_cons_of_ne_nil _ _ (by simp)]
      rw [getLast?_append_of_ne_nil _ _ (by simp)]
      rw [getLast?_cons_of_ne_nil _ _ (by simp)]
      rw [getLast?_cons_of_ne_nil _ _ (by simp [hune])]
      rw [getLast?_append_of_ne_nil _ _ (by simp)]
      rfl
    have hpbs : processBlockStructure ['[' :: (t ++ ']' :: '(' :: (u ++ [')']))] =
        ['[' :: (t ++ ']' :: '(' :: (u ++ [')']))] :=
      pbs_single_passthrough _ (containsSub_phCB_false _ hnull)
        (tableRowMatch_false_of_getLast _ ')' hlast (by decide))
        (headingMatch_none_of_head _ '[' rfl (by decide))
        (hrMatch_false_of_head _ '[' rfl (by decide) (by decide) (by decide))
        (bqMatch_none_of_head _ '[' rfl (by decide))
        (ulMatch_none_of_head _ '[' rfl (by decide) (by decide) (by decide) (by decide))
        (olMatch_none_of_head _ '[' rfl (by decide) (by decide))
    have hnotick : '`' ∉ '[' :: (t ++ ']' :: '(' :: (u ++ [')'])) := by
      intro hx
      rcases hmem _ hx with h | h | h | h | h | h
      · exact absurd h (by decide)
      · exact ht3 h
      · exact absurd h (by decide)
      · exact absurd h (by decide)
      · exact hu3 h
      · exact absurd h (by decide)
    have hnotbang : '!' ∉ '[' :: (t ++ ']' :: '(' :: (u ++ [')'])) := by
      intro hx
      rcases hmem _ hx with h | h | h | h | h | h
      · exact absurd h (by decide)
      · exact ht2 h
      · exact absurd h (by decide)
      · exact absurd h (by decide)
      · exact hu2 h
      · exact absurd h (by decide)
    have hic : extractInlineCode ('[' :: (t ++ ']' :: '(' :: (u ++ [')']))) [] =
        ('[' :: (t ++ ']' :: '(' :: (u ++ [')'])), []) :=
      icSubAux_id _ _ []
        (fun tl htl => icPosMatch_none tl (tail_head_ne htl hnotick))
    have hlk := extractLinks_single_link t u ht1 hu1 hune hnotbang
    have hpil : processInlineLines ['[' :: (t ++ ']' :: '(' :: (u ++ [')']))] [] [] =
        (['[' :: (t ++ '|' :: (u ++ [']']))],
         [(ph phLK 0, '[' :: (t ++ '|' :: (u ++ [']'])))], []) := by
      rw [processInlineLines]
      rw [if_neg (by rw [containsSub_phCB_false _ hnull]; simp)]
      rw [hic]
      simp only []
      rw [hlk]
      simp only []
      have hfmt : processInlineFormatting (ph phLK 0) = ph phLK 0 := by decide
      rw [hfmt]
      have hr1 : restorePlaceholders (ph phLK 0)
          [(ph phLK 0, '[' :: (t ++ '|' :: (u ++ [']'])))] =
          '[' :: (t ++ '|' :: (u ++ [']'])) := by
        unfold restorePlaceholders
        rw [List.foldl_cons, List.foldl_nil]
        exact replaceAll_self _ _ (by decide)
      rw [hr1]
      rfl
    rw [convert_def]
    simp only []
    rw [hsplit, hecb]
    simp only []
    rw [hpbs, hpil]
    simp only []
    rw [if_neg (by rw [hlast]; decide)]
    rfl
  · intro a u ha1 ha3 ha4 ha5 hu1 hu3 hu4 hu5 hune
    have hmem : ∀ x : Char, x ∈ '!' :: '[' :: (a ++ ']' :: '(' :: (u ++ [')'])) →
        x = '!' ∨ x = '[' ∨ x ∈ a ∨ x = ']' ∨ x = '(' ∨ x ∈ u ∨ x = ')' := by
      intro x hx
      simp only [List.mem_cons, List.mem_append, List.mem_singleton] at hx
      tauto
    have hclean : ∀ c ∈ '!' :: '[' :: (a ++ ']' :: '(' :: (u ++ [')'])),
        isLineBreakChar c = false := by
      intro c hc
      rcases hmem c hc with rfl | rfl | h | rfl | rfl | h | rfl
      · decide
      · decide
      · exact ha5 c h
      · decide
      · decide
      · exact hu5 c h
      · decide
    have hsplit : splitlines ('!' :: '[' :: (a ++ ']' :: '(' :: (u ++ [')']))) =
        ['!' :: '[' :: (a ++ ']' :: '(' :: (u ++ [')']))] := by
      unfold splitlines
      rw [splitlinesAux_single _ [] (by simp) hclean]
      rfl
    have hfence : fenceStartMatch ('!' :: '[' :: (a ++ ']' :: '(' :: (u ++ [')']))) = none :=
      fenceStartMatch_none_of_head _ '!' rfl (by decide) (by decide)
    have hecb : extractCodeBlocks ['!' :: '[' :: (a ++ ']' :: '(' :: (u ++ [')']))] =
        (['!' :: '[' :: (a ++ ']' :: '(' :: (u ++ [')']))], []) := by
      unfold extractCodeBlocks
      rw [ecbAux.eq_def]
      simp only [hfence]
      rfl
    have hnull : '\x00' ∉ '!' :: '[' :: (a ++ ']' :: '(' :: (u ++ [')'])) := by
      intro hx
      rcases hmem _ hx with h | h | h | h | h | h | h
      · exact absurd h (by decide)
      · exact absurd h (by decide)
      · exact ha4 h
      · exact absurd h (by decide)
      · exact absurd h (by decide)
      · exact hu4 h
      · exact absurd h (by decide)
    have hlast : ('!' :: '[' :: (a ++ ']' :: '(' :: (u ++ [')']))).getLast? = some ')' := by
      rw [getLast?_cons_of_ne_nil _ _ (by simp)]
      rw [getLast?_cons_of_ne_nil _ _ (by simp)]
      rw [getLast?_append_of_ne_nil _ _ (by simp)]
      rw [getLast?_cons_of_ne_nil _ _ (by simp)]
      rw [getLast?_cons_of_ne_nil _ _ (by simp [hune])]
      rw [getLast?_append_of_ne_nil _ _ (by simp)]
      rfl
    have hpbs : processBlockStructure ['!' :: '[' :: (a ++ ']' :: '(' :: (u ++ [')']))] =
        ['!' :: '[' :: (a ++ ']' :: '(' :: (u ++ [')']))] :=
      pbs_single_passthrough _ (containsSub_phCB_false _ hnull)
        (tableRowMatch_false_of_getLast _ ')' hlast (by decide))
        (headingMatch_none_of_head _ '!' rfl (by decide))
        (hrMatch_false_of_head _ '!' rfl (by decide) (by decide) (by decide))
        (bqMatch_none_of_head _ '!' rfl (by decide))
        (ulMatch_none_of_head _ '!' rfl (by decide) (by decide) (by decide) (by decide))
        (olMatch_none_of_head _ '!' rfl (by decide) (by decide))
    have hnotick : '`' ∉ '!' :: '[' :: (a ++ ']' :: '(' :: (u ++ [')'])) := by
      intro hx
      rcases hmem _ hx with h | h | h | h | h | h | h
      · exact absurd h (by decide)
      · exact absurd h (by decide)
      · exact ha3 h
      · exact absurd h (by decide)
      · exact absurd h (by decide)
      · exact hu3 h
      · exact absurd h (by decide)
    have hic : extractInlineCode ('!' :: '[' :: (a ++ ']' :: '(' :: (u ++ [')']))) [] =
        ('!' :: '[' :: (a ++ ']' :: '(' :: (u ++ [')'])), []) :=
      icSubAux_id _ _ []
        (fun tl htl => icPosMatch_none tl (tail_head_ne htl hnotick))
    have hlk := extractLinks_single_img a u ha1 hu1 hune
    have hpil : processInlineLines ['!' :: '[' :: (a ++ ']' :: '(' :: (u ++ [')']))] [] [] =
        (['!' :: (u ++ ['!'])], [(ph phLK 0, '!' :: (u ++ ['!']))], []) := by
      rw [processInlineLines]
      rw [if_neg (by rw [containsSub_phCB_false _ hnull]; simp)]
      rw [hic]
      simp only []
      rw [hlk]
      simp only []
      have hfmt : processInlineFormatting (ph phLK 0) = ph phLK 0 := by decide
      rw [hfmt]
      have hr1 : restorePlaceholders (ph phLK 0) [(ph phLK 0, '!' :: (u ++ ['!']))] =
          '!' :: (u ++ ['!']) := by
        unfold restorePlaceholders
        rw [List.foldl_cons, List.foldl_nil]
        exact replaceAll_self _ _ (by decide)
      rw [hr1]
      rfl
    rw [convert_def]
    simp only []
    rw [hsplit, hecb]
    simp only []
    rw [hpbs, hpil]
    simp only []
    rw [if_neg (by rw [hlast]; decide)]
    rfl

/-- C8 (witness): a link whose URL contains underscores keeps them
verbatim, and an image drops its alt text. -/
theorem c8_links_images_witness :
    convert ⟨'[' :: ("link".data ++ ']' :: '(' :: ("https://e.com/a_b_c".data ++ [')']))⟩ =
      ⟨'[' :: ("link".data ++ '|' :: ("https://e.com/a_b_c".data ++ [']']))⟩ ∧
    convert "[link](https://e.com/a_b_c)" = "[link|https://e.com/a_b_c]" ∧
    convert ⟨'!' :: '[' :: ("alt".data ++ ']' :: '(' :: ("img_1.png".data ++ [')']))⟩ =
      ⟨'!' :: ("img_1.png".data ++ ['!'])⟩ :=
  ⟨c8_links_images.1 "link".data "https://e.com/a_b_c".data (by decide) (by decide)
      (by decide) (by decide) (by decide) (by decide) (by decide) (by decide) (by decide)
      (by decide) (by decide),
   by decide,
   c8_links_images.2 "alt".data "img_1.png".data (by decide) (by decide) (by decide)
      (by decide) (by decide) (by decide) (by decide) (by decide) (by decide)⟩

/-! ## C1: totality and pass-through of unmatched text -/

/-- C1: totality and literal pass-through.  `convert` is a total Lean
function (every recursion here is structural or fuel-bounded, mirroring the
source's terminating loops), so it returns a string on every input; the
conjuncts evaluate it on the empty string and on inputs with unmatched
fence, link and table syntax.  The universally quantified part: any
single-line input matching none of the block or inline patterns
(`plainLine`) passes through `convert` unmodified. -/
theorem c1_total_passthrough :
    (∀ s : String, plainLine s.data = true → convert s = s) ∧
    convert "" = "" ∧
    convert "```\nunclosed" = "\x7bcode\x7d\nunclosed\n\x7bcode\x7d" ∧
    convert "[text](" = "[text](" ∧
    convert "| a" = "| a" := by
  refine ⟨?_, by decide, by decide, by decide, by decide⟩
  intro s hp
  unfold plainLine at hp
  simp only [Bool.and_eq_true, List.all_eq_true, Option.isNone_iff_eq_none,
    Bool.not_eq_true'] at hp
  obtain ⟨⟨⟨⟨⟨⟨⟨⟨⟨hclean, hfence⟩, hph⟩, htr⟩, hhm⟩, hhr⟩, hbq⟩, hul⟩, hol⟩, htails⟩ := hp
  have hclean' : ∀ c ∈ s.data, isLineBreakChar c = false := by
    intro c hc
    simpa using hclean c hc
  rcases hdata : s.data with _ | ⟨c0, rest0⟩
  · rw [convert_def]
    rw [hdata]
    rcases s with ⟨d⟩
    simp only [String.data] at hdata
    subst hdata
    rfl
  · have hne : s.data ≠ [] := by rw [hdata]; simp
    have hsplit : splitlines s.data = [s.data] := by
      unfold splitlines
      rw [splitlinesAux_single s.data [] hne hclean']
      rfl
    have hecb : extractCodeBlocks [s.data] = ([s.data], []) := by
      unfold extractCodeBlocks
      rw [ecbAux.eq_def]
      simp only [hfence]
      rfl
    have hpbs : processBlockStructure [s.data] = [s.data] :=
      pbs_single_passthrough s.data hph htr hhm hhr hbq hul hol
    have htails' : ∀ t ∈ s.data.tails,
        icPosMatch t = none ∧ imgPosMatch t = none ∧
        linkPosMatch t = none ∧ biPosMatch t = none ∧
        boldPosMatch t = none ∧ strikePosMatch t = none ∧
        italicPosMatch false false t = none ∧
        italicPosMatch false true t = none ∧
        italicPosMatch true false t = none ∧
        italicPosMatch true true t = none := by
      intro t ht
      have h2 := htails t ht
      simp only [Bool.and_eq_true, Option.isNone_iff_eq_none] at h2
      tauto
    have hic : extractInlineCode s.data [] = (s.data, []) :=
      icSubAux_id _ _ []
        (fun t ht => (htails' t ht).1)
    have hlk : extractLinks s.data [] = (s.data, []) := by
      unfold extractLinks
      rw [imgSubAux_id _ _ []
        (fun t ht => (htails' t ht).2.1)]
      simp only []
      rw [linkSubAux_id _ _ []
        (fun t ht => (htails' t ht).2.2.1)]
    have hfmt : processInlineFormatting s.data = s.data := by
      unfold processInlineFormatting
      rw [biSubAux_id _ _ []
        (fun t ht => (htails' t ht).2.2.2.1)]
      simp only []
      rw [boldSubAux_id _ _ []
        (fun t ht => (htails' t ht).2.2.2.2.1)]
      simp only []
      have hital : italicSub s.data = s.data := by
        unfold italicSub
        refine italicSubAux_id _ false false s.data ?_
        intro t ht b1 b2
        have h4 := htails' t ht
        cases b1 <;> cases b2
        · exact h4.2.2.2.2.2.2.1
        · exact h4.2.2.2.2.2.2.2.1
        · exact h4.2.2.2.2.2.2.2.2.1
        · exact h4.2.2.2.2.2.2.2.2.2
      rw [hital]
      rw [strikeSubAux_id _ s.data
        (fun t ht => (htails' t ht).2.2.2.2.2.1)]
      rfl
    have hpil : processInlineLines [s.data] [] [] = ([s.data], [], []) := by
      rw [processInlineLines]
      rw [if_neg (by rw [hph]; simp)]
      rw [hic]
      simp only []
      rw [hlk]
      simp only []
      rw [hfmt]
      rfl
    have hnonl : ¬(s.data.getLast? = some '\n') := by
      intro hx
      have hmem := List.mem_of_getLast?_eq_some hx
      have := hclean' '\n' hmem
      exact absurd this (by decide)
    rw [convert_def]
    rw [hsplit, hecb]
    simp only []
    rw [hpbs, hpil]
    simp only []
    rw [if_neg hnonl]
    rcases s with ⟨d⟩
    rfl

/-- C1 (witness): the pass-through part applied to `"hello, world."`. -/
theorem c1_total_passthrough_witness :
    plainLine ("hello, world.".data) = true ∧ convert "hello, world." = "hello, world." :=
  ⟨by decide, c1_total_passthrough.1 "hello, world." (by decide)⟩

end Md2Markup

namespace Md2Markup
theorem NBC.nlOnly {l : List Char} (h : NBC l) : NLOnly l := by
  intro c hc hb
  rw [h c hc] at hb
  exact absurd hb (by decide)

theorem NBC.sub {l l' : List Char} (h : NBC l) (hsub : ∀ c ∈ l', c ∈ l) : NBC l' :=
  fun c hc => h c (hsub c hc)

theorem NBC.appendBC {l1 l2 : List Char} (h1 : NBC l1) (h2 : NBC l2) : NBC (l1 ++ l2) := by
  intro c hc
  rcases List.mem_append.mp hc with h | h
  · exact h1 c h
  · exact h2 c h

theorem NBC.consBC {c : Char} {l : List Char} (hc : isLineBreakChar c = false) (h : NBC l) :
    NBC (c :: l) := by
  intro x hx
  rcases List.mem_cons.mp hx with rfl | hx2
  · exact hc
  · exact h x hx2

theorem NLOnly.appendNL {l1 l2 : List Char} (h1 : NLOnly l1) (h2 : NLOnly l2) :
    NLOnly (l1 ++ l2) := by
  intro c hc
  rcases List.mem_append.mp hc with h | h
  · exact h1 c h
  · exact h2 c h

theorem NLOnly.consNL {c : Char} {l : List Char} (hc : isLineBreakChar c = true → c = '\n')
    (h : NLOnly l) : NLOnly (c :: l) := by
  intro x hx
  rcases List.mem_cons.mp hx with rfl | hx2
  · exact hc
  · exact h x hx2

theorem digitChar_not_break : ∀ k, k < 10 → isLineBreakChar (digitChar k) = false := by
  decide

theorem natDigits_NBC (n : Nat) : NBC (natDigits n) := by
  unfold natDigits
  generalize n + 1 = fuel
  induction fuel generalizing n with
  | zero => intro c hc; simp [natDigitsAux] at hc
  | succ k ih =>
    intro c hc
    rw [natDigitsAux] at hc
    split at hc
    · simp only [List.mem_singleton] at hc
      subst hc
      rename_i hlt
      exact digitChar_not_break n hlt
    · rcases List.mem_append.mp hc with h | h
      · exact ih (n / 10) c h
      · simp only [List.mem_singleton] at h
        subst h
        exact digitChar_not_break (n % 10) (Nat.mod_lt n (by decide))
end Md2Markup

namespace Md2Markup
theorem ph_NBC (tag : List Char) (n : Nat) (htag : NBC tag) : NBC (ph tag n) := by
  unfold ph
  intro c hc
  rcases List.mem_append.mp hc with h | h
  · rcases List.mem_append.mp h with h1 | h1
    · exact htag c h1
    · rcases List.mem_cons.mp h1 with rfl | h2
      · decide
      · exact natDigits_NBC n c h2
  · simp only [List.mem_singleton] at h
    subst h
    decide

theorem splitlinesAux_NBC : ∀ (l acc : List Char), NBC acc →
    ∀ x ∈ splitlinesAux l acc, NBC x := by
  intro l acc
  induction l, acc using splitlinesAux.induct with
  | case1 acc hacc =>
    intro _ x hx
    unfold splitlinesAux at hx
    rw [if_pos hacc] at hx
    simp at hx
  | case2 acc hacc =>
    intro hNBC x hx
    unfold splitlinesAux at hx
    rw [if_neg hacc] at hx
    simp only [List.mem_singleton] at hx
    subst hx
    intro c hc
    exact hNBC c (by simpa using hc)
  | case3 rest acc ih =>
    intro hNBC x hx
    rw [splitlinesAux.eq_2] at hx
    rcases List.mem_cons.mp hx with rfl | hx2
    · intro c hc
      exact hNBC c (by simpa using hc)
    · exact ih (by intro c hc; simp at hc) x hx2
  | case4 c rest acc hno hbr ih =>
    intro hNBC x hx
    rw [splitlinesAux.eq_3 acc c rest hno, if_pos hbr] at hx
    rcases List.mem_cons.mp hx with rfl | hx2
    · intro d hd
      exact hNBC d (by simpa using hd)
    · exact ih (by intro d hd; simp at hd) x hx2
  | case5 c rest acc hno hbr ih =>
    intro hNBC x hx
    rw [splitlinesAux.eq_3 acc c rest hno, if_neg hbr] at hx
    refine ih ?_ x hx
    intro d hd
    rcases List.mem_cons.mp hd with rfl | hd2
    · simpa using hbr
    · exact hNBC d hd2

theorem splitlines_NBC (l : List Char) : ∀ x ∈ splitlines l, NBC x :=
  splitlinesAux_NBC l [] (by intro c hc; simp at hc)

theorem joinLines_NLOnly : ∀ ls : List (List Char), (∀ x ∈ ls, NBC x) →
    NLOnly (joinLines ls) := by
  intro ls
  induction ls with
  | nil => intro _ c hc; simp [joinLines] at hc
  | cons x ls ih =>
    intro h
    cases ls with
    | nil =>
      intro c hc
      rw [show joinLines [x] = x from rfl] at hc
      intro hb
      rw [h x (by simp) c hc] at hb
      exact absurd hb (by decide)
    | cons y ys =>
      rw [joinLines_cons x (y :: ys) (by simp)]
      refine NLOnly.appendNL ((h x (by simp)).nlOnly) (NLOnly.consNL (fun _ => rfl) ?_)
      exact ih (fun z hz => h z (by simp [hz]))

theorem replaceAllAux_pres (P : Char → Prop) :
    ∀ (fuel : Nat) (t pat val : List Char), (∀ c ∈ t, P c) → (∀ c ∈ val, P c) →
    ∀ c ∈ replaceAllAux fuel t pat val, P c := by
  intro fuel
  induction fuel with
  | zero => intro t pat val ht _ c hc; exact ht c hc
  | succ n ih =>
    intro t pat val ht hval c hc
    by_cases hcase : (decide (pat ≠ []) && pat.isPrefixOf t) = true
    · rw [replaceAllAux.eq_def] at hc
      simp only [] at hc
      rw [if_pos hcase] at hc
      rcases List.mem_append.mp hc with h | h
      · exact hval c h
      · exact ih (t.drop pat.length) pat val
          (fun d hd => ht d ((List.drop_sublist _ _).subset hd)) hval c h
    · rw [replaceAllAux.eq_def] at hc
      simp only [] at hc
      rw [if_neg hcase] at hc
      rcases ht2 : t with _ | ⟨a, rest⟩
      · rw [ht2] at hc
        simp at hc
      · rw [ht2] at hc
        simp only [] at hc
        rcases List.mem_cons.mp hc with rfl | h2
        · exact ht c (by rw [ht2]; simp)
        · exact ih rest pat val (fun d hd => ht d (by rw [ht2]; simp [hd])) hval c h2

theorem restorePlaceholders_pres (P : Char → Prop) (t : List Char)
    (m : List (List Char × List Char)) (ht : ∀ c ∈ t, P c)
    (hm : ∀ kv ∈ m, ∀ c ∈ kv.2, P c) : ∀ c ∈ restorePlaceholders t m, P c := by
  induction m generalizing t with
  | nil => exact ht
  | cons kv m ih =>
    have hstep : restorePlaceholders t (kv :: m) =
        restorePlaceholders (replaceAll t kv.1 kv.2) m := rfl
    rw [hstep]
    exact ih (replaceAll t kv.1 kv.2)
      (replaceAllAux_pres P t.length t kv.1 kv.2 ht (hm kv (by simp)))
      (fun y hy c hc => hm y (by simp [hy]) c hc)
end Md2Markup

namespace Md2Markup
theorem fenceStartMatch_lang (l : List Char) (c : Char) (lang : List Char)
    (h : fenceStartMatch l = some (c, lang)) : ∃ n, lang = l.drop n := by
  rcases l with _ | ⟨a, rest⟩
  · simp [fenceStartMatch] at h
  · unfold fenceStartMatch at h
    simp only [] at h
    split at h
    · split at h
      · simp only [Option.some.injEq, Prod.mk.injEq] at h
        exact ⟨_, h.2.symm⟩
      · simp at h
    · simp at h

theorem mkBlock_NLOnly (lang : List Char) (body : List (List Char))
    (hlang : NBC lang) (hbody : ∀ x ∈ body, NBC x) : NLOnly (mkBlock lang body) := by
  unfold mkBlock
  refine NLOnly.appendNL (NLOnly.appendNL ?_
    (NLOnly.consNL (fun _ => rfl) (joinLines_NLOnly body hbody)))
    (NLOnly.consNL (fun _ => rfl) (by decide))
  split
  · decide
  · exact NLOnly.appendNL (NLOnly.appendNL (by decide) hlang.nlOnly) (by decide)

end Md2Markup

namespace Md2Markup
theorem ecbAux_pres : ∀ (lines : List (List Char)) (counter : Nat)
    (st : Option (Char × List Char × List (List Char))),
    (∀ x ∈ lines, NBC x) →
    (∀ c lang acc, st = some (c, lang, acc) → NBC lang ∧ ∀ x ∈ acc, NBC x) →
    (∀ x ∈ (ecbAux lines counter st).1, NBC x) ∧
    (∀ kv ∈ (ecbAux lines counter st).2, NLOnly kv.2) := by
  intro lines counter st
  induction lines, counter, st using ecbAux.induct with
  | case1 counter =>
    intro _ _
    exact ⟨by simp [ecbAux], by simp [ecbAux]⟩
  | case2 counter c lang acc =>
    intro _ hst
    obtain ⟨hlang, hacc⟩ := hst c lang acc rfl
    constructor
    · intro x hx
      rw [show ecbAux [] counter (some (c, lang, acc)) =
        ([ph phCB counter], [(ph phCB counter, mkBlock lang acc.reverse)]) from rfl] at hx
      simp only [List.mem_singleton] at hx
      subst hx
      exact ph_NBC phCB counter (by decide)
    · intro kv hkv
      rw [show ecbAux [] counter (some (c, lang, acc)) =
        ([ph phCB counter], [(ph phCB counter, mkBlock lang acc.reverse)]) from rfl] at hkv
      simp only [List.mem_singleton] at hkv
      subst hkv
      exact mkBlock_NLOnly lang acc.reverse hlang
        (fun x hx => hacc x (by simpa using hx))
  | case3 l rest counter c lang hfence ih =>
    intro hlines _
    have hstep : ecbAux (l :: rest) counter none =
        ecbAux rest counter (some (c, lang, [])) := by
      rw [ecbAux.eq_def]
      simp only [hfence]
    rw [hstep]
    refine ih (fun x hx => hlines x (by simp [hx])) ?_
    intro c2 lang2 acc2 heq
    injection heq with heq2
    obtain ⟨n, hn⟩ := fenceStartMatch_lang l c lang hfence
    have hlang : NBC lang := by
      rw [hn]
      exact (hlines l (by simp)).sub (fun d hd => (List.drop_sublist n l).subset hd)
    cases heq2
    exact ⟨hlang, by simp⟩
  | case4 l rest counter hfence rs m heq ih =>
    intro hlines _
    have ihs := ih (fun x hx => hlines x (by simp [hx])) (fun _ _ _ h => nomatch h)
    rw [heq] at ihs
    have hstep : ecbAux (l :: rest) counter none = (l :: rs, m) := by
      rw [ecbAux.eq_def]
      simp only [hfence, heq]
    rw [hstep]
    constructor
    · intro x hx
      rcases List.mem_cons.mp hx with rfl | hx2
      · exact hlines x (by simp)
      · exact ihs.1 x hx2
    · exact ihs.2
  | case5 l rest counter c lang acc hclose rs m heq ih =>
    intro hlines hst
    obtain ⟨hlang, hacc⟩ := hst c lang acc rfl
    have ihs := ih (fun x hx => hlines x (by simp [hx])) (fun _ _ _ h => nomatch h)
    rw [heq] at ihs
    have hstep : ecbAux (l :: rest) counter (some (c, lang, acc)) =
        (ph phCB counter :: rs, (ph phCB counter, mkBlock lang acc.reverse) :: m) := by
      rw [ecbAux.eq_def]
      simp only [hclose, if_true, heq]
    rw [hstep]
    constructor
    · intro x hx
      rcases List.mem_cons.mp hx with rfl | hx2
      · exact ph_NBC phCB counter (by decide)
      · exact ihs.1 x hx2
    · intro kv hkv
      rcases List.mem_cons.mp hkv with rfl | hkv2
      · exact mkBlock_NLOnly lang acc.reverse hlang (fun x hx => hacc x (by simpa using hx))
      · exact ihs.2 kv hkv2
  | case6 l rest counter c lang acc hclose ih =>
    intro hlines hst
    obtain ⟨hlang, hacc⟩ := hst c lang acc rfl
    have hstep : ecbAux (l :: rest) counter (some (c, lang, acc)) =
        ecbAux rest counter (some (c, lang, l :: acc)) := by
      rw [ecbAux.eq_def]
      simp only [hclose]
      simp
    rw [hstep]
    refine ih (fun x hx => hlines x (by simp [hx])) ?_
    intro c2 lang2 acc2 heq
    cases heq
    refine ⟨hlang, ?_⟩
    intro x hx
    rcases List.mem_cons.mp hx with rfl | hx2
    · exact hlines x (by simp)
    · exact hacc x hx2
end Md2Markup

namespace Md2Markup
theorem lstripWS_subset (l : List Char) : ∀ c ∈ lstripWS l, c ∈ l :=
  fun _ hc => (List.dropWhile_sublist _).subset hc

theorem rstripWS_subset (l : List Char) : ∀ c ∈ rstripWS l, c ∈ l := by
  intro c hc
  unfold rstripWS at hc
  rw [List.mem_reverse] at hc
  have := (List.dropWhile_sublist isSpaceChar (l := l.reverse)).subset hc
  rwa [List.mem_reverse] at this

theorem stripWS_subset (l : List Char) : ∀ c ∈ stripWS l, c ∈ l :=
  fun c hc => lstripWS_subset l c (rstripWS_subset (lstripWS l) c hc)

theorem headingMatch_subset (l : List Char) (lvl : Nat) (content : List Char)
    (h : headingMatch l = some (lvl, content)) : ∀ c ∈ content, c ∈ l := by
  unfold headingMatch at h
  simp only [] at h
  split at h
  · split at h
    · split at h
      · simp only [Option.some.injEq, Prod.mk.injEq] at h
        intro c hc
        rw [← h.2] at hc
        have h1 := (List.dropWhile_sublist isSpaceChar).subset hc
        rename_i heq _
        have h2 : c ∈ l.drop (l.takeWhile (fun c => decide (c = '#'))).length := by
          rw [heq]; exact List.mem_cons_of_mem _ h1
        exact (List.drop_sublist _ _).subset h2
      · simp at h
    · simp at h
  · simp at h

theorem bqMatch_subset (l : List Char) (content : List Char)
    (h : bqMatch l = some content) : ∀ c ∈ content, c ∈ l := by
  rw [bqMatch.eq_def] at h
  split at h
  · rename_i rest
    simp only [Option.some.injEq] at h
    subst h
    intro c hc
    rcases hrest : rest with _ | ⟨d, r⟩
    · rw [hrest] at hc; simp at hc
    · rw [hrest] at hc
      simp only [] at hc
      split at hc
      · simp only [hrest, List.mem_cons]
        right; right; exact hc
      · simp only [hrest, List.mem_cons]
        rcases List.mem_cons.mp hc with h1 | h2
        · right; left; exact h1
        · right; right; exact h2
  · simp at h

theorem bqFlatten_subset : ∀ l : List Char, ∀ c ∈ bqFlatten l, c ∈ l := by
  intro l
  induction l using bqFlatten.induct with
  | case1 d r hsp ih =>
    intro c hc
    rw [bqFlatten] at hc
    simp only [hsp, if_true] at hc
    simp [ih c hc]
  | case2 d r hsp ih =>
    intro c hc
    rw [bqFlatten] at hc
    rw [if_neg hsp] at hc
    simp [ih c hc]
  | case3 =>
    intro c hc
    rw [bqFlatten] at hc
    simp at hc
  | case4 x h =>
    intro c hc
    rw [bqFlatten.eq_def] at hc
    split at hc
    · rename_i rest
      exact absurd rfl (h rest)
    · exact hc
end Md2Markup

namespace Md2Markup
theorem ulMatch_subset (l : List Char) (i : Nat) (content : List Char)
    (h : ulMatch l = some (i, content)) : ∀ c ∈ content, c ∈ l := by
  unfold ulMatch at h
  simp only [] at h
  split at h
  · rename_i m d rest heq
    split at h
    · simp only [Option.some.injEq, Prod.mk.injEq] at h
      intro c hc
      rw [← h.2] at hc
      have h1 : c ∈ rest := (List.dropWhile_sublist isSpaceChar).subset hc
      have h2 : c ∈ l.drop (l.takeWhile isSpaceChar).length := by
        rw [heq]; simp [h1]
      exact (List.drop_sublist _ _).subset h2
    · simp at h
  · simp at h

theorem olMatch_subset (l : List Char) (i : Nat) (content : List Char)
    (h : olMatch l = some (i, content)) : ∀ c ∈ content, c ∈ l := by
  unfold olMatch at h
  simp only [] at h
  split at h
  · simp at h
  · split at h
    · rename_i d rest heq
      split at h
      · simp only [Option.some.injEq, Prod.mk.injEq] at h
        intro c hc
        rw [← h.2] at hc
        have h1 : c ∈ rest := (List.dropWhile_sublist isSpaceChar).subset hc
        have h2 : c ∈ ('.' :: d :: rest) := by simp [h1]
        rw [← heq] at h2
        have h3 := (List.drop_sublist _ _).subset h2
        exact (List.drop_sublist _ _).subset h3
      · simp at h
    · simp at h

theorem taskChecked_subset (l : List Char) (r : List Char)
    (h : taskChecked l = some r) : ∀ c ∈ r, c ∈ l := by
  rw [taskChecked.eq_def] at h
  split at h
  · rename_i x d rest
    split at h
    · simp only [Option.some.injEq] at h
      subst h
      intro c hc
      have h1 : c ∈ rest := (List.dropWhile_sublist isSpaceChar).subset hc
      simp [h1]
    · simp at h
  · simp at h

theorem taskUnchecked_subset (l : List Char) (r : List Char)
    (h : taskUnchecked l = some r) : ∀ c ∈ r, c ∈ l := by
  rw [taskUnchecked.eq_def] at h
  split at h
  · rename_i d rest
    split at h
    · simp only [Option.some.injEq] at h
      subst h
      intro c hc
      have h1 : c ∈ rest := (List.dropWhile_sublist isSpaceChar).subset hc
      simp [h1]
    · simp at h
  · simp at h

theorem splitOnPipe_subset : ∀ l : List Char, ∀ g ∈ splitOnPipe l, ∀ c ∈ g, c ∈ l := by
  intro l
  induction l using splitOnPipe.induct with
  | case1 =>
    intro g hg c hc
    rw [splitOnPipe] at hg
    simp at hg
    subst hg
    simp at hc
  | case2 rest ih =>
    intro g hg c hc
    rw [splitOnPipe] at hg
    rcases List.mem_cons.mp hg with rfl | h2
    · simp at hc
    · simp [ih g h2 c hc]
  | case3 a rest hne g gs heq ih =>
    intro g' hg c hc
    rw [splitOnPipe.eq_def] at hg
    split at hg
    · simp at hg
      subst hg
      simp at hc
    · rename_i r0 hx
      injection hx with h1 h2
      exact absurd h1 hne
    · rename_i c0 rest0 hne0 heq0
      have hc0 : a = c0 ∧ rest = rest0 := by injection heq0 with h1 h2; exact ⟨h1, h2⟩
      rw [← hc0.1, ← hc0.2, heq] at hg
      rcases List.mem_cons.mp hg with rfl | h2
      · rcases List.mem_cons.mp hc with rfl | h3
        · simp
        · have := ih g (by rw [heq]; simp) c h3
          simp [this]
      · have := ih g' (by rw [heq]; simp [h2]) c hc
        simp [this]
  | case4 a rest hne heq ih =>
    intro g' hg c hc
    rw [splitOnPipe.eq_def] at hg
    split at hg
    · simp at hg
      subst hg
      simp at hc
    · rename_i r0 hx
      injection hx with h1 h2
      exact absurd h1 hne
    · rename_i c0 rest0 hne0 heq0
      have hc0 : a = c0 ∧ rest = rest0 := by injection heq0 with h1 h2; exact ⟨h1, h2⟩
      rw [← hc0.1, ← hc0.2, heq] at hg
      simp at hg
      subst hg
      rcases List.mem_cons.mp hc with rfl | h3
      · simp
      · simp at h3

theorem joinWith_mem (sep : List Char) : ∀ (xs : List (List Char)) (c : Char),
    c ∈ joinWith sep xs → c ∈ sep ∨ ∃ g ∈ xs, c ∈ g := by
  intro xs
  induction xs using joinWith.induct with
  | sep => exact sep
  | case1 =>
    intro c hc
    rw [joinWith] at hc
    simp at hc
  | case2 x =>
    intro c hc
    rw [joinWith] at hc
    right
    exact ⟨x, by simp, hc⟩
  | case3 x y ys ih =>
    intro c hc
    rw [joinWith.eq_def] at hc
    simp only [] at hc
    rcases List.mem_append.mp hc with h1 | h2
    · rcases List.mem_append.mp h1 with h3 | h4
      · right; exact ⟨x, by simp, h3⟩
      · left; exact h4
    · rcases ih c h2 with h3 | ⟨g, hg, hcg⟩
      · left; exact h3
      · right; exact ⟨g, by simp [hg], hcg⟩
end Md2Markup

namespace Md2Markup
theorem formatTableRow_NBC (row : List Char) (header : Bool) (h : NBC row) :
    NBC (formatTableRow row header) := by
  unfold formatTableRow
  intro c hc
  simp only [List.mem_append] at hc
  have hsep : ∀ d ∈ (if header then ['|', '|'] else ['|']), isLineBreakChar d = false := by
    intro d hd
    have hd' : d = '|' := by
      split at hd <;> simp at hd <;> tauto
    subst hd'
    decide
  rcases hc with (h1 | h2) | h3
  · exact hsep c h1
  · rcases joinWith_mem _ _ c h2 with hs | ⟨g, hg, hcg⟩
    · exact hsep c hs
    · simp only [List.mem_map] at hg
      obtain ⟨g0, hg0, rfl⟩ := hg
      have hcg0 := stripWS_subset g0 c hcg
      have hcin : c ∈ stripWS row ∨ c ∈ (stripWS row).tail ∨
          c ∈ (stripWS row).dropLast ∨ c ∈ ((stripWS row).tail).dropLast := by
        have := splitOnPipe_subset _ g0 hg0 c hcg0
        split at this
        · split at this
          · right; right; right
            exact this
          · right; left
            exact this
        · split at this
          · right; right; left
            exact this
          · left; exact this
      have hrow : c ∈ row := by
        rcases hcin with h4 | h4 | h4 | h4
        · exact stripWS_subset row c h4
        · exact stripWS_subset row c ((List.tail_sublist _).subset h4)
        · exact stripWS_subset row c ((List.dropLast_sublist _).subset h4)
        · exact stripWS_subset row c
            ((List.tail_sublist _).subset ((List.dropLast_sublist _).subset h4))
      exact h c hrow
  · exact hsep c h3

theorem processTable_NBC (rows : List (List Char))
    (h : ∀ r ∈ rows, NBC r) : ∀ x ∈ processTable rows, NBC x := by
  unfold processTable
  intro x hx
  split at hx
  · simp only [List.mem_map] at hx
    obtain ⟨r, hr, rfl⟩ := hx
    exact formatTableRow_NBC r false (h r hr)
  · rcases List.mem_append.mp hx with h1 | h2
    · simp only [List.mem_map] at h1
      obtain ⟨r, hr, rfl⟩ := h1
      exact formatTableRow_NBC r true (h r ((List.take_sublist _ _).subset hr))
    · simp only [List.mem_map] at h2
      obtain ⟨r, hr, rfl⟩ := h2
      have : r ∈ rows := (List.drop_sublist _ _).subset ((List.filter_sublist _).subset hr)
      exact formatTableRow_NBC r false (h r this)

theorem listMarks_NBC (stack : List LType) : NBC (listMarks stack) := by
  intro c hc
  unfold listMarks at hc
  simp only [List.mem_map] at hc
  obtain ⟨t, _, rfl⟩ := hc
  cases t <;> decide

theorem blockLine_NBC (l : List Char) (stack : List LType) (h : NBC l) :
    NBC (blockLine l stack).1 := by
  unfold blockLine
  split
  · rename_i level content heq
    have hcontent : NBC content := h.sub (headingMatch_subset l level content heq)
    have hrs : NBC (rstripWS content) := hcontent.sub (rstripWS_subset content)
    exact NBC.consBC (by decide)
      ((natDigits_NBC level).appendBC (NBC.consBC (by decide) (NBC.consBC (by decide) hrs)))
  · split
    · intro c hc
      revert c
      decide
    · split
      · rename_i content heq
        have hcontent : NBC content := h.sub (bqMatch_subset l content heq)
        have hflat : NBC (bqFlatten content) := hcontent.sub (bqFlatten_subset content)
        exact NBC.appendBC (by intro c hc; revert c; decide) hflat
      · split
        · rename_i indent content heq
          have hcontent : NBC content := h.sub (ulMatch_subset l indent content heq)
          have hmarks := listMarks_NBC ((updateStack stack (indent / 2 + 1) LType.ul).take (indent / 2 + 1))
          simp only []
          split
          · rename_i rest heq2
            exact (hmarks.appendBC (by decide : NBC [' ', '(', '/', ')', ' '])).appendBC
              (hcontent.sub (taskChecked_subset content rest heq2))
          · split
            · rename_i rest heq3
              exact (hmarks.appendBC (by decide : NBC [' ', '(', ' ', ')', ' '])).appendBC
                (hcontent.sub (taskUnchecked_subset content rest heq3))
            · exact hmarks.appendBC (NBC.consBC (by decide) hcontent)
        · split
          · rename_i indent content heq
            have hcontent : NBC content := h.sub (olMatch_subset l indent content heq)
            have hmarks := listMarks_NBC ((updateStack stack (indent / 2 + 1) LType.ol).take (indent / 2 + 1))
            exact hmarks.appendBC (NBC.consBC (by decide) hcontent)
          · exact h

theorem pbsAux_NBC : ∀ (lines : List (List Char)) (stack : List LType)
    (buf : List (List Char)), (∀ x ∈ lines, NBC x) → (∀ x ∈ buf, NBC x) →
    ∀ x ∈ pbsAux lines stack buf, NBC x := by
  intro lines
  induction lines with
  | nil =>
    intro stack buf _ hbuf x hx
    rw [pbsAux] at hx
    exact processTable_NBC buf hbuf x hx
  | cons l rest ih =>
    intro stack buf hlines hbuf x hx
    have hl : NBC l := hlines l (by simp)
    have hrest : ∀ y ∈ rest, NBC y := fun y hy => hlines y (by simp [hy])
    rw [pbsAux] at hx
    by_cases h1 : containsSub phCB l = true
    · rw [if_pos h1] at hx
      rcases List.mem_append.mp hx with h2 | h3
      · exact processTable_NBC buf hbuf x h2
      · rcases List.mem_cons.mp h3 with rfl | h4
        · exact hl
        · exact ih [] [] hrest (by simp) x h4
    · rw [if_neg h1] at hx
      by_cases h2 : tableRowMatch l = true
      · rw [if_pos h2] at hx
        refine ih stack (buf ++ [l]) hrest ?_ x hx
        intro y hy
        rcases List.mem_append.mp hy with h3 | h4
        · exact hbuf y h3
        · rcases List.mem_singleton.mp h4 with rfl
          exact hl
      · rw [if_neg h2] at hx
        rcases List.mem_append.mp hx with h3 | h4
        · exact processTable_NBC buf hbuf x h3
        · rcases hbl : blockLine l stack with ⟨out, stack'⟩
          rw [hbl] at h4
          simp only [] at h4
          rcases List.mem_cons.mp h4 with rfl | h5
          · have := blockLine_NBC l stack hl
            rwa [hbl] at this
          · exact ih stack' [] hrest (by simp) x h5

theorem processBlockStructure_NBC (lines : List (List Char))
    (h : ∀ x ∈ lines, NBC x) : ∀ x ∈ processBlockStructure lines, NBC x :=
  pbsAux_NBC lines [] [] h (by simp)
end Md2Markup

namespace Md2Markup
theorem icPosMatch_subset (l content rest : List Char)
    (h : icPosMatch l = some (content, rest)) :
    (∀ c ∈ content, c ∈ l) ∧ (∀ c ∈ rest, c ∈ l) := by
  unfold icPosMatch at h
  split at h
  · simp at h
  · rename_i c0 r0
    split at h
    · simp only [] at h
      split at h
      · rename_i c2 rest2 heq
        split at h
        · simp only [Option.some.injEq, Prod.mk.injEq] at h
          constructor
          · intro c hc
            rw [← h.1] at hc
            exact List.mem_cons_of_mem _ ((List.takeWhile_sublist _).subset hc)
          · intro c hc
            rw [← h.2] at hc
            have h1 : c ∈ (c2 :: rest2) := by simp [hc]
            rw [← heq] at h1
            exact List.mem_cons_of_mem _ ((List.drop_sublist _ _).subset h1)
        · simp at h
      · simp at h
    · simp at h

theorem imgPosMatch_subset (l alt url rest : List Char)
    (h : imgPosMatch l = some (alt, url, rest)) :
    (∀ c ∈ url, c ∈ l) ∧ (∀ c ∈ rest, c ∈ l) := by
  unfold imgPosMatch at h
  split at h
  · rename_i r0
    simp only [] at h
    split at h
    · rename_i rest2 heq
      split at h
      · rename_i rest3 heq2
        split at h
        · simp only [Option.some.injEq, Prod.mk.injEq] at h
          have hr2 : ∀ c ∈ rest2, c ∈ ('!' :: '[' :: r0) := by
            intro c hc
            have h1 : c ∈ (']' :: '(' :: rest2) := by simp [hc]
            rw [← heq] at h1
            have h2 := (List.drop_sublist _ _).subset h1
            simp [h2]
          constructor
          · intro c hc
            rw [← h.2.1] at hc
            exact hr2 c ((List.takeWhile_sublist _).subset hc)
          · intro c hc
            rw [← h.2.2] at hc
            have h1 : c ∈ (')' :: rest3) := by simp [hc]
            rw [← heq2] at h1
            exact hr2 c ((List.drop_sublist _ _).subset h1)
        · simp at h
      · simp at h
    · simp at h
  · simp at h

theorem linkPosMatch_subset (l txt url rest : List Char)
    (h : linkPosMatch l = some (txt, url, rest)) :
    (∀ c ∈ txt, c ∈ l) ∧ (∀ c ∈ url, c ∈ l) ∧ (∀ c ∈ rest, c ∈ l) := by
  unfold linkPosMatch at h
  split at h
  · rename_i r0
    simp only [] at h
    split at h
    · rename_i rest2 heq
      split at h
      · rename_i rest3 heq2
        split at h
        · simp only [Option.some.injEq, Prod.mk.injEq] at h
          have hr2 : ∀ c ∈ rest2, c ∈ ('[' :: r0) := by
            intro c hc
            have h1 : c ∈ (']' :: '(' :: rest2) := by simp [hc]
            rw [← heq] at h1
            have h2 := (List.drop_sublist _ _).subset h1
            simp [h2]
          refine ⟨?_, ?_, ?_⟩
          · intro c hc
            rw [← h.1] at hc
            exact List.mem_cons_of_mem _ ((List.takeWhile_sublist _).subset hc)
          · intro c hc
            rw [← h.2.1] at hc
            exact hr2 c ((List.takeWhile_sublist _).subset hc)
          · intro c hc
            rw [← h.2.2] at hc
            have h1 : c ∈ (')' :: rest3) := by simp [hc]
            rw [← heq2] at h1
            exact hr2 c ((List.drop_sublist _ _).subset h1)
        · simp at h
      · simp at h
    · simp at h
  · simp at h

theorem findClose2_subset (d : Char) : ∀ (l seg after : List Char),
    findClose2 d l = some (seg, after) →
    (∀ c ∈ seg, c ∈ l) ∧ (∀ c ∈ after, c ∈ l) := by
  intro l
  induction l using findClose2.induct d with
  | case1 c1 c2 rest hcond =>
    intro seg after h
    rw [findClose2.eq_def] at h
    simp only [] at h
    rw [if_pos hcond] at h
    simp only [Option.some.injEq, Prod.mk.injEq] at h
    constructor
    · intro c hc; rw [← h.1] at hc; simp at hc
    · intro c hc; rw [← h.2] at hc; simp [hc]
  | case2 c1 c2 rest hcond seg0 after0 heq ih =>
    intro seg after h
    rw [findClose2.eq_def] at h
    simp only [] at h
    rw [if_neg hcond, heq] at h
    simp only [Option.some.injEq, Prod.mk.injEq] at h
    have := ih seg0 after0 heq
    constructor
    · intro c hc
      rw [← h.1] at hc
      rcases List.mem_cons.mp hc with rfl | h2
      · simp
      · exact List.mem_cons_of_mem _ (this.1 c h2)
    · intro c hc
      rw [← h.2] at hc
      exact List.mem_cons_of_mem _ (this.2 c hc)
  | case3 c1 c2 rest hcond heq ih =>
    intro seg after h
    rw [findClose2.eq_def] at h
    simp only [] at h
    rw [if_neg hcond, heq] at h
    simp at h
  | case4 x hx =>
    intro seg after h
    rw [findClose2.eq_def] at h
    split at h
    · rename_i c1 c2 rest
      exact absurd rfl (hx c1 c2 rest)
    · simp at h

theorem findClose3_subset (d : Char) : ∀ (l seg after : List Char),
    findClose3 d l = some (seg, after) →
    (∀ c ∈ seg, c ∈ l) ∧ (∀ c ∈ after, c ∈ l) := by
  intro l
  induction l using findClose3.induct d with
  | case1 c1 c2 c3 rest hcond =>
    intro seg after h
    rw [findClose3.eq_def] at h
    simp only [] at h
    rw [if_pos hcond] at h
    simp only [Option.some.injEq, Prod.mk.injEq] at h
    constructor
    · intro c hc; rw [← h.1] at hc; simp at hc
    · intro c hc; rw [← h.2] at hc; simp [hc]
  | case2 c1 c2 c3 rest hcond seg0 after0 heq ih =>
    intro seg after h
    rw [findClose3.eq_def] at h
    simp only [] at h
    rw [if_neg hcond, heq] at h
    simp only [Option.some.injEq, Prod.mk.injEq] at h
    have := ih seg0 after0 heq
    constructor
    · intro c hc
      rw [← h.1] at hc
      rcases List.mem_cons.mp hc with rfl | h2
      · simp
      · exact List.mem_cons_of_mem _ (this.1 c h2)
    · intro c hc
      rw [← h.2] at hc
      exact List.mem_cons_of_mem _ (this.2 c hc)
  | case3 c1 c2 c3 rest hcond heq ih =>
    intro seg after h
    rw [findClose3.eq_def] at h
    simp only [] at h
    rw [if_neg hcond, heq] at h
    simp at h
  | case4 x hx =>
    intro seg after h
    rw [findClose3.eq_def] at h
    split at h
    · rename_i c1 c2 c3 rest
      exact absurd rfl (hx c1 c2 c3 rest)
    · simp at h

theorem italicClose_subset (d : Char) : ∀ (l : List Char) (prev : Char)
    (seg after : List Char), italicClose d l prev = some (seg, after) →
    (∀ c ∈ seg, c ∈ l) ∧ (∀ c ∈ after, c ∈ l) := by
  intro l
  induction l with
  | nil =>
    intro prev seg after h
    rw [italicClose] at h
    simp at h
  | cons c0 rest ih =>
    intro prev seg after h
    rw [italicClose] at h
    by_cases hcond : (c0 = d ∧ prev ≠ d ∧ rest.head? ≠ some d)
    · rw [if_pos (by simp [hcond.1, hcond.2.1, hcond.2.2])] at h
      simp only [Option.some.injEq, Prod.mk.injEq] at h
      constructor
      · intro c hc; rw [← h.1] at hc; simp at hc
      · intro c hc; rw [← h.2] at hc; simp [hc]
    · rw [if_neg (by simpa using hcond)] at h
      split at h
      · rename_i seg0 after0 heq
        simp only [Option.some.injEq, Prod.mk.injEq] at h
        have := ih c0 seg0 after0 heq
        constructor
        · intro c hc
          rw [← h.1] at hc
          rcases List.mem_cons.mp hc with rfl | h2
          · simp
          · exact List.mem_cons_of_mem _ (this.1 c h2)
        · intro c hc
          rw [← h.2] at hc
          exact List.mem_cons_of_mem _ (this.2 c hc)
      · simp at h
end Md2Markup

namespace Md2Markup
theorem biPosMatch_subset (l body rest : List Char)
    (h : biPosMatch l = some (body, rest)) :
    (∀ c ∈ body, c ∈ l) ∧ (∀ c ∈ rest, c ∈ l) := by
  unfold biPosMatch at h
  split at h
  · rename_i a b c0 e r0
    split at h
    · split at h
      · rename_i seg after heq
        simp only [Option.some.injEq, Prod.mk.injEq] at h
        have hfc := findClose3_subset a r0 seg after heq
        constructor
        · intro c hc
          rw [← h.1] at hc
          rcases List.mem_cons.mp hc with rfl | h2
          · simp
          · have := hfc.1 c h2
            simp [this]
        · intro c hc
          rw [← h.2] at hc
          have := hfc.2 c hc
          simp [this]
      · simp at h
    · simp at h
  · simp at h

theorem boldPosMatch_subset (l body rest : List Char)
    (h : boldPosMatch l = some (body, rest)) :
    (∀ c ∈ body, c ∈ l) ∧ (∀ c ∈ rest, c ∈ l) := by
  unfold boldPosMatch at h
  split at h
  · rename_i a b c0 r0
    split at h
    · split at h
      · rename_i seg after heq
        simp only [Option.some.injEq, Prod.mk.injEq] at h
        have hfc := findClose2_subset a r0 seg after heq
        constructor
        · intro c hc
          rw [← h.1] at hc
          rcases List.mem_cons.mp hc with rfl | h2
          · simp
          · have := hfc.1 c h2
            simp [this]
        · intro c hc
          rw [← h.2] at hc
          have := hfc.2 c hc
          simp [this]
      · simp at h
    · simp at h
  · simp at h

theorem strikePosMatch_subset (l body rest : List Char)
    (h : strikePosMatch l = some (body, rest)) :
    (∀ c ∈ body, c ∈ l) ∧ (∀ c ∈ rest, c ∈ l) := by
  unfold strikePosMatch at h
  split at h
  · rename_i c0 r0
    split at h
    · rename_i seg after heq
      simp only [Option.some.injEq, Prod.mk.injEq] at h
      have hfc := findClose2_subset '~' r0 seg after heq
      constructor
      · intro c hc
        rw [← h.1] at hc
        rcases List.mem_cons.mp hc with rfl | h2
        · simp
        · have := hfc.1 c h2
          simp [this]
      · intro c hc
        rw [← h.2] at hc
        have := hfc.2 c hc
        simp [this]
    · simp at h
  · simp at h

theorem italicPosMatch_subset (pS pU : Bool) (l : List Char) (d : Char)
    (body rest : List Char) (h : italicPosMatch pS pU l = some (d, body, rest)) :
    (∀ c ∈ body, c ∈ l) ∧ (∀ c ∈ rest, c ∈ l) := by
  unfold italicPosMatch at h
  split at h
  · rename_i c0 r0
    split at h
    · split at h
      · rename_i seg after heq
        simp only [Option.some.injEq, Prod.mk.injEq] at h
        have hic := italicClose_subset '*' r0 c0 seg after heq
        constructor
        · intro c hc
          rw [← h.2.1] at hc
          rcases List.mem_cons.mp hc with rfl | h2
          · simp
          · have := hic.1 c h2
            simp [this]
        · intro c hc
          rw [← h.2.2] at hc
          have := hic.2 c hc
          simp [this]
      · simp at h
    · simp at h
  · rename_i c0 r0
    split at h
    · split at h
      · rename_i seg after heq
        simp only [Option.some.injEq, Prod.mk.injEq] at h
        have hic := italicClose_subset '_' r0 c0 seg after heq
        constructor
        · intro c hc
          rw [← h.2.1] at hc
          rcases List.mem_cons.mp hc with rfl | h2
          · simp
          · have := hic.1 c h2
            simp [this]
        · intro c hc
          rw [← h.2.2] at hc
          have := hic.2 c hc
          simp [this]
      · simp at h
    · simp at h
  · simp at h

theorem escapeBraces_NBC (content : List Char) (h : NBC content) :
    NBC (escapeBraces content) := by
  unfold escapeBraces
  split
  · exact replaceAllAux_pres (fun c => isLineBreakChar c = false) _ _ _ _
      (replaceAllAux_pres (fun c => isLineBreakChar c = false) _ _ _ _ h (by decide))
      (by decide)
  · exact h
end Md2Markup

namespace Md2Markup
theorem icSubAux_NBC : ∀ (fuel : Nat) (l : List Char) (m : List (List Char × List Char)),
    NBC l → (∀ kv ∈ m, NBC kv.2) →
    NBC (icSubAux fuel l m).1 ∧ ∀ kv ∈ (icSubAux fuel l m).2, NBC kv.2 := by
  intro fuel
  induction fuel with
  | zero => intro l m hl hm; exact ⟨hl, hm⟩
  | succ n ih =>
    intro l m hl hm
    rw [icSubAux.eq_def]
    rcases hpm : icPosMatch l with _ | ⟨content, rest⟩
    · simp only [hpm]
      rcases hl2 : l with _ | ⟨c, rest2⟩
      · simp only []
        exact ⟨by intro c hc; simp at hc, hm⟩
      · simp only []
        rcases hrec : icSubAux n rest2 m with ⟨r, m'⟩
        have hres := ih rest2 m (fun d hd => hl d (by simp [hl2, hd])) hm
        rw [hrec] at hres
        simp only [hrec]
        exact ⟨NBC.consBC (hl c (by simp [hl2])) hres.1, hres.2⟩
    · simp only [hpm]
      have hsub := icPosMatch_subset l content rest hpm
      have hcontent : NBC content := hl.sub hsub.1
      have hrest : NBC rest := hl.sub hsub.2
      have hval : NBC ('\x7b' :: '\x7b' :: (escapeBraces content ++ ['\x7d', '\x7d'])) :=
        NBC.consBC (by decide) (NBC.consBC (by decide)
          ((escapeBraces_NBC content hcontent).appendBC (by decide)))
      have hm2 : ∀ kv ∈ m ++ [(ph phIC m.length,
          '\x7b' :: '\x7b' :: escapeBraces content ++ ['\x7d', '\x7d'])], NBC kv.2 := by
        intro kv hkv
        rcases List.mem_append.mp hkv with h1 | h2
        · exact hm kv h1
        · rcases List.mem_singleton.mp h2 with rfl
          exact hval
      rcases hrec : icSubAux n rest (m ++ [(ph phIC m.length,
          '\x7b' :: '\x7b' :: escapeBraces content ++ ['\x7d', '\x7d'])]) with ⟨r, m'⟩
      have hres := ih rest _ hrest hm2
      rw [hrec] at hres
      simp only [hrec]
      exact ⟨(ph_NBC phIC m.length (by decide)).appendBC hres.1, hres.2⟩

theorem imgSubAux_NBC : ∀ (fuel : Nat) (l : List Char) (m : List (List Char × List Char)),
    NBC l → (∀ kv ∈ m, NBC kv.2) →
    NBC (imgSubAux fuel l m).1 ∧ ∀ kv ∈ (imgSubAux fuel l m).2, NBC kv.2 := by
  intro fuel
  induction fuel with
  | zero => intro l m hl hm; exact ⟨hl, hm⟩
  | succ n ih =>
    intro l m hl hm
    rw [imgSubAux.eq_def]
    rcases hpm : imgPosMatch l with _ | ⟨alt, url, rest⟩
    · simp only [hpm]
      rcases hl2 : l with _ | ⟨c, rest2⟩
      · simp only []
        exact ⟨by intro c hc; simp at hc, hm⟩
      · simp only []
        rcases hrec : imgSubAux n rest2 m with ⟨r, m'⟩
        have hres := ih rest2 m (fun d hd => hl d (by simp [hl2, hd])) hm
        rw [hrec] at hres
        simp only [hrec]
        exact ⟨NBC.consBC (hl c (by simp [hl2])) hres.1, hres.2⟩
    · simp only [hpm]
      have hsub := imgPosMatch_subset l alt url rest hpm
      have hurl : NBC url := hl.sub hsub.1
      have hrest : NBC rest := hl.sub hsub.2
      have hval : NBC ('!' :: (url ++ ['!'])) :=
        NBC.consBC (by decide) (hurl.appendBC (by decide))
      have hm2 : ∀ kv ∈ m ++ [(ph phLK m.length, '!' :: url ++ ['!'])], NBC kv.2 := by
        intro kv hkv
        rcases List.mem_append.mp hkv with h1 | h2
        · exact hm kv h1
        · rcases List.mem_singleton.mp h2 with rfl
          exact hval
      rcases hrec : imgSubAux n rest (m ++ [(ph phLK m.length, '!' :: url ++ ['!'])])
        with ⟨r, m'⟩
      have hres := ih rest _ hrest hm2
      rw [hrec] at hres
      simp only [hrec]
      exact ⟨(ph_NBC phLK m.length (by decide)).appendBC hres.1, hres.2⟩

theorem linkSubAux_NBC : ∀ (fuel : Nat) (l : List Char) (m : List (List Char × List Char)),
    NBC l → (∀ kv ∈ m, NBC kv.2) →
    NBC (linkSubAux fuel l m).1 ∧ ∀ kv ∈ (linkSubAux fuel l m).2, NBC kv.2 := by
  intro fuel
  induction fuel with
  | zero => intro l m hl hm; exact ⟨hl, hm⟩
  | succ n ih =>
    intro l m hl hm
    rw [linkSubAux.eq_def]
    rcases hpm : linkPosMatch l with _ | ⟨txt, url, rest⟩
    · simp only [hpm]
      rcases hl2 : l with _ | ⟨c, rest2⟩
      · simp only []
        exact ⟨by intro c hc; simp at hc, hm⟩
      · simp only []
        rcases hrec : linkSubAux n rest2 m with ⟨r, m'⟩
        have hres := ih rest2 m (fun d hd => hl d (by simp [hl2, hd])) hm
        rw [hrec] at hres
        simp only [hrec]
        exact ⟨NBC.consBC (hl c (by simp [hl2])) hres.1, hres.2⟩
    · simp only [hpm]
      have hsub := linkPosMatch_subset l txt url rest hpm
      have htxt : NBC txt := hl.sub hsub.1
      have hurl : NBC url := hl.sub hsub.2.1
      have hrest : NBC rest := hl.sub hsub.2.2
      have hval : NBC ('[' :: txt ++ '|' :: url ++ [']']) :=
        ((NBC.consBC (by decide) htxt).appendBC (NBC.consBC (by decide) hurl)).appendBC (by decide)
      have hm2 : ∀ kv ∈ m ++ [(ph phLK m.length, '[' :: txt ++ '|' :: url ++ [']'])],
          NBC kv.2 := by
        intro kv hkv
        rcases List.mem_append.mp hkv with h1 | h2
        · exact hm kv h1
        · rcases List.mem_singleton.mp h2 with rfl
          exact hval
      rcases hrec : linkSubAux n rest (m ++ [(ph phLK m.length,
          '[' :: txt ++ '|' :: url ++ [']'])]) with ⟨r, m'⟩
      have hres := ih rest _ hrest hm2
      rw [hrec] at hres
      simp only [hrec]
      exact ⟨(ph_NBC phLK m.length (by decide)).appendBC hres.1, hres.2⟩

theorem biSubAux_NBC : ∀ (fuel : Nat) (l : List Char) (m : List (List Char × List Char)),
    NBC l → (∀ kv ∈ m, NBC kv.2) →
    NBC (biSubAux fuel l m).1 ∧ ∀ kv ∈ (biSubAux fuel l m).2, NBC kv.2 := by
  intro fuel
  induction fuel with
  | zero => intro l m hl hm; exact ⟨hl, hm⟩
  | succ n ih =>
    intro l m hl hm
    rw [biSubAux.eq_def]
    rcases hpm : biPosMatch l with _ | ⟨body, rest⟩
    · simp only [hpm]
      rcases hl2 : l with _ | ⟨c, rest2⟩
      · simp only []
        exact ⟨by intro c hc; simp at hc, hm⟩
      · simp only []
        rcases hrec : biSubAux n rest2 m with ⟨r, m'⟩
        have hres := ih rest2 m (fun d hd => hl d (by simp [hl2, hd])) hm
        rw [hrec] at hres
        simp only [hrec]
        exact ⟨NBC.consBC (hl c (by simp [hl2])) hres.1, hres.2⟩
    · simp only [hpm]
      have hsub := biPosMatch_subset l body rest hpm
      have hbody : NBC body := hl.sub hsub.1
      have hrest : NBC rest := hl.sub hsub.2
      have hval : NBC ('*' :: '_' :: (body ++ ['_', '*'])) :=
        NBC.consBC (by decide) (NBC.consBC (by decide) (hbody.appendBC (by decide)))
      have hm2 : ∀ kv ∈ m ++ [(ph phBD m.length, '*' :: '_' :: body ++ ['_', '*'])],
          NBC kv.2 := by
        intro kv hkv
        rcases List.mem_append.mp hkv with h1 | h2
        · exact hm kv h1
        · rcases List.mem_singleton.mp h2 with rfl
          exact hval
      rcases hrec : biSubAux n rest (m ++ [(ph phBD m.length,
          '*' :: '_' :: body ++ ['_', '*'])]) with ⟨r, m'⟩
      have hres := ih rest _ hrest hm2
      rw [hrec] at hres
      simp only [hrec]
      exact ⟨(ph_NBC phBD m.length (by decide)).appendBC hres.1, hres.2⟩

theorem boldSubAux_NBC : ∀ (fuel : Nat) (l : List Char) (m : List (List Char × List Char)),
    NBC l → (∀ kv ∈ m, NBC kv.2) →
    NBC (boldSubAux fuel l m).1 ∧ ∀ kv ∈ (boldSubAux fuel l m).2, NBC kv.2 := by
  intro fuel
  induction fuel with
  | zero => intro l m hl hm; exact ⟨hl, hm⟩
  | succ n ih =>
    intro l m hl hm
    rw [boldSubAux.eq_def]
    rcases hpm : boldPosMatch l with _ | ⟨body, rest⟩
    · simp only [hpm]
      rcases hl2 : l with _ | ⟨c, rest2⟩
      · simp only []
        exact ⟨by intro c hc; simp at hc, hm⟩
      · simp only []
        rcases hrec : boldSubAux n rest2 m with ⟨r, m'⟩
        have hres := ih rest2 m (fun d hd => hl d (by simp [hl2, hd])) hm
        rw [hrec] at hres
        simp only [hrec]
        exact ⟨NBC.consBC (hl c (by simp [hl2])) hres.1, hres.2⟩
    · simp only [hpm]
      have hsub := boldPosMatch_subset l body rest hpm
      have hbody : NBC body := hl.sub hsub.1
      have hrest : NBC rest := hl.sub hsub.2
      have hval : NBC ('*' :: (body ++ ['*'])) :=
        NBC.consBC (by decide) (hbody.appendBC (by decide))
      have hm2 : ∀ kv ∈ m ++ [(ph phBD m.length, '*' :: body ++ ['*'])], NBC kv.2 := by
        intro kv hkv
        rcases List.mem_append.mp hkv with h1 | h2
        · exact hm kv h1
        · rcases List.mem_singleton.mp h2 with rfl
          exact hval
      rcases hrec : boldSubAux n rest (m ++ [(ph phBD m.length, '*' :: body ++ ['*'])])
        with ⟨r, m'⟩
      have hres := ih rest _ hrest hm2
      rw [hrec] at hres
      simp only [hrec]
      exact ⟨(ph_NBC phBD m.length (by decide)).appendBC hres.1, hres.2⟩

theorem italicSubAux_NBC : ∀ (fuel : Nat) (pS pU : Bool) (l : List Char),
    NBC l → NBC (italicSubAux fuel pS pU l) := by
  intro fuel
  induction fuel with
  | zero => intro pS pU l hl; exact hl
  | succ n ih =>
    intro pS pU l hl
    rw [italicSubAux.eq_def]
    rcases hpm : italicPosMatch pS pU l with _ | ⟨d, body, rest⟩
    · simp only [hpm]
      rcases hl2 : l with _ | ⟨c, rest2⟩
      · simp only []
        intro c hc
        simp at hc
      · simp only []
        exact NBC.consBC (hl c (by simp [hl2]))
          (ih _ _ rest2 (fun e he => hl e (by simp [hl2, he])))
    · simp only [hpm]
      have hsub := italicPosMatch_subset pS pU l d body rest hpm
      exact NBC.consBC (by decide) ((hl.sub hsub.1).appendBC
        (NBC.consBC (by decide) (ih _ _ rest (hl.sub hsub.2))))

theorem strikeSubAux_NBC : ∀ (fuel : Nat) (l : List Char),
    NBC l → NBC (strikeSubAux fuel l) := by
  intro fuel
  induction fuel with
  | zero => intro l hl; exact hl
  | succ n ih =>
    intro l hl
    rw [strikeSubAux.eq_def]
    rcases hpm : strikePosMatch l with _ | ⟨body, rest⟩
    · simp only [hpm]
      rcases hl2 : l with _ | ⟨c, rest2⟩
      · simp only []
        intro c hc
        simp at hc
      · simp only []
        exact NBC.consBC (hl c (by simp [hl2]))
          (ih rest2 (fun e he => hl e (by simp [hl2, he])))
    · simp only [hpm]
      have hsub := strikePosMatch_subset l body rest hpm
      exact NBC.consBC (by decide) ((hl.sub hsub.1).appendBC
        (NBC.consBC (by decide) (ih rest (hl.sub hsub.2))))
end Md2Markup

namespace Md2Markup
theorem processInlineFormatting_NBC (l : List Char) (h : NBC l) :
    NBC (processInlineFormatting l) := by
  unfold processInlineFormatting
  rcases h1 : biSubAux l.length l [] with ⟨l1, bm1⟩
  have hbi := biSubAux_NBC l.length l [] h (by simp)
  rw [h1] at hbi
  simp only [h1]
  rcases h2 : boldSubAux l1.length l1 bm1 with ⟨l2, bm2⟩
  have hbold := boldSubAux_NBC l1.length l1 bm1 hbi.1 hbi.2
  rw [h2] at hbold
  simp only [h2]
  have hital : NBC (italicSub l2) := italicSubAux_NBC l2.length false false l2 hbold.1
  have hstrike : NBC (strikeSubAux (italicSub l2).length (italicSub l2)) :=
    strikeSubAux_NBC _ _ hital
  exact restorePlaceholders_pres (fun c => isLineBreakChar c = false) _ bm2 hstrike hbold.2

theorem processInlineLines_NBC : ∀ (lines : List (List Char))
    (lm im : List (List Char × List Char)),
    (∀ x ∈ lines, NBC x) → (∀ kv ∈ lm, NBC kv.2) → (∀ kv ∈ im, NBC kv.2) →
    ∀ x ∈ (processInlineLines lines lm im).1, NBC x := by
  intro lines
  induction lines with
  | nil =>
    intro lm im _ _ _ x hx
    rw [processInlineLines] at hx
    simp at hx
  | cons l rest ih =>
    intro lm im hlines hlm him x hx
    have hl : NBC l := hlines l (by simp)
    have hrest : ∀ y ∈ rest, NBC y := fun y hy => hlines y (by simp [hy])
    rw [processInlineLines.eq_def] at hx
    simp only [] at hx
    by_cases h1 : containsSub phCB l = true
    · rw [if_pos h1] at hx
      rcases hrec : processInlineLines rest lm im with ⟨rs, lm', im'⟩
      rw [hrec] at hx
      simp only [] at hx
      rcases List.mem_cons.mp hx with rfl | h2
      · exact hl
      · have := ih lm im hrest hlm him
        rw [hrec] at this
        exact this x h2
    · rw [if_neg h1] at hx
      rcases hic : extractInlineCode l im with ⟨l1, im1⟩
      rw [hic] at hx
      have hic2 := icSubAux_NBC l.length l im hl him
      rw [show icSubAux l.length l im = extractInlineCode l im from rfl, hic] at hic2
      rcases hlk : extractLinks l1 lm with ⟨l2, lm1⟩
      rw [hlk] at hx
      have hlk2 : NBC l2 ∧ ∀ kv ∈ lm1, NBC kv.2 := by
        have himg := imgSubAux_NBC l1.length l1 lm hic2.1 hlm
        rcases himgeq : imgSubAux l1.length l1 lm with ⟨la, ma⟩
        rw [himgeq] at himg
        have hlnk := linkSubAux_NBC la.length la ma himg.1 himg.2
        have : extractLinks l1 lm = linkSubAux la.length la ma := by
          unfold extractLinks
          rw [himgeq]
        rw [← this, hlk] at hlnk
        exact hlnk
      simp only [] at hx
      rcases hrec : processInlineLines rest lm1 im1 with ⟨rs, lm', im'⟩
      rw [hrec] at hx
      simp only [] at hx
      rcases List.mem_cons.mp hx with rfl | h2
      · have h3 : NBC (processInlineFormatting l2) := processInlineFormatting_NBC l2 hlk2.1
        have h4 : NBC (restorePlaceholders (processInlineFormatting l2) lm1) :=
          restorePlaceholders_pres (fun c => isLineBreakChar c = false) _ lm1 h3 hlk2.2
        exact restorePlaceholders_pres (fun c => isLineBreakChar c = false) _ im1 h4 hic2.2
      · have := ih lm1 im1 hrest hlk2.2 hic2.2
        rw [hrec] at this
        exact this x h2
end Md2Markup

namespace Md2Markup
/-- C10: for every input string, every line-break character occurring in
the output of `convert` is the single character `'\n'`: the pipeline splits
the input at every Python `str.splitlines` break (so no break character
survives inside a line, fenced bodies included) and rejoins with `'\n'`,
and the only possible trailing break is one `'\n'`. -/
theorem c10_newline_normalization (s : String) :
    ∀ c ∈ (convert s).data, isLineBreakChar c = true → c = '\n' := by
  have hsplit : ∀ x ∈ splitlines s.data, NBC x := splitlines_NBC s.data
  have hecb := ecbAux_pres (splitlines s.data) 0 none hsplit
    (fun c lang acc h => nomatch h)
  have hblk : ∀ x ∈ processBlockStructure (extractCodeBlocks (splitlines s.data)).1,
      NBC x := processBlockStructure_NBC _ hecb.1
  have hpil : ∀ x ∈ (processInlineLines
      (processBlockStructure (extractCodeBlocks (splitlines s.data)).1) [] []).1, NBC x :=
    processInlineLines_NBC _ [] [] hblk (by simp) (by simp)
  have hjoin : NLOnly (joinLines (processInlineLines
      (processBlockStructure (extractCodeBlocks (splitlines s.data)).1) [] []).1) :=
    joinLines_NLOnly _ hpil
  have hfin : ∀ c ∈ restorePlaceholders
      (joinLines (processInlineLines
        (processBlockStructure (extractCodeBlocks (splitlines s.data)).1) [] []).1)
      (extractCodeBlocks (splitlines s.data)).2, isLineBreakChar c = true → c = '\n' :=
    restorePlaceholders_pres (fun c => isLineBreakChar c = true → c = '\n') _ _ hjoin
      (fun kv hkv => hecb.2 kv hkv)
  intro c hc hbreak
  rw [convert_def] at hc
  have hdata : ∀ l : List Char, (String.mk l).data = l := fun _ => rfl
  rw [hdata] at hc
  split at hc
  · rcases List.mem_append.mp hc with h1 | h2
    · exact hfin c h1 hbreak
    · rcases List.mem_singleton.mp h2 with rfl
      rfl
  · exact hfin c hc hbreak

theorem c10_newline_normalization_witness :
    '\n' ∈ (convert "a\rb").data ∧ isLineBreakChar '\n' = true ∧ '\n' = '\n' :=
  ⟨by decide, by decide,
    c10_newline_normalization "a\rb" '\n' (by decide) (by decide)⟩
end Md2Markup
